import Mathlib

/-!
Verification development for the linkwatch service.

The Lean definitions below are shallow embeddings of the Go source:

* `internal/api/handlers.go` — limit/cursor/since query parsing, CreateTarget
  handler status codes, list handlers;
* `internal/checker/pool.go` — `performCheck`, the bounded retry/backoff loop;
* `internal/checker/limiter.go` — the per-host mutual-exclusion set;
* `internal/storage/sqlite/store.go` — `CreateTarget`, `ListTargets` and the
  TEXT (RFC3339Nano) representation of `created_at`;
* `internal/urlutil/canonical.go` — `Canonicalize`, together with the parts of
  Go's `net/url` package it relies on (`Parse`, `Hostname`, `URL.String`).

Machine integers do not overflow in any of the modelled paths, so `Nat`/`Int`
are used directly.  Fallible operations return `Option`.
-/

namespace Linkwatch

/-! ## API limit parsing

`handlers.go` parses the `limit` query parameter with
`strconv.Atoi` and keeps the parsed value only when it lies in the accepted
range; in every other case (parameter absent, not an integer, zero, negative,
or above the maximum) the default is used.  `LimitParam` distinguishes the
three relevant shapes of the raw parameter.
-/

inductive LimitParam where
  | absent
  | notAnInt
  | value (v : Int)
deriving DecidableEq

/-- `ListTargets` limit parsing (handlers.go lines 98-103):
default 50, accepted range `0 < v ≤ 500`. -/
def listTargetsLimit : LimitParam → Int
  | .absent => 50
  | .notAnInt => 50
  | .value v => if 0 < v ∧ v ≤ 500 then v else 50

/-- `ListCheckResults` limit parsing (handlers.go lines 174-179):
default 100, accepted range `0 < v ≤ 1000`. -/
def listResultsLimit : LimitParam → Int
  | .absent => 100
  | .notAnInt => 100
  | .value v => if 0 < v ∧ v ≤ 1000 then v else 100

/-! ## The probe loop (`performCheck`, pool.go lines 80-147)

One HTTP attempt either yields a response (with a status code) or fails at
transport level with an error message.  The environment `env` gives the
outcome of the `n`-th attempt (`n` starts at 1), abstracting the network.
Request construction (`http.NewRequestWithContext`) is modelled as always
succeeding: the URL given to it is the stored canonical URL, which parsed
before.

`probeLoop` is a literal transcription of the `for` loop: `statusCode`
(`sc`) and `errMsg` (`em`) live *outside* the loop and are only ever
overwritten by the branch taken in the current iteration, exactly as in the
source; `backoff` doubles after each sleep; the loop continues only while
`attempts < maxAttempts` and the retry predicate holds of the current error
and the current (possibly stale) `statusCode`.
-/

inductive AttemptOutcome where
  | response (code : Int)
  | transportError (msg : String)

/-- The `retry` closure of pool.go lines 96-101, expressed on the outcome of
the current attempt: a transport error is always retryable, a response is
retryable iff its code is in `[500, 599]`. -/
def retryableOutcome : AttemptOutcome → Bool
  | .transportError _ => true
  | .response c => 500 ≤ c && c ≤ 599

/-- State of `performCheck` after the loop has finished:
number of attempts made, final `statusCode` and `errMsg` variables, and the
list of sleeps performed (in ms, in order). -/
structure ProbeRun where
  attempts : Nat
  statusCode : Option Int
  errMsg : Option String
  sleeps : List Nat
deriving DecidableEq

/-- Update of the `statusCode` variable by one loop iteration (pool.go lines
113-122): set on a response, left untouched on a transport error. -/
def scAfter (o : AttemptOutcome) (sc : Option Int) : Option Int :=
  match o with | .response c => some c | .transportError _ => sc

/-- Update of the `errMsg` variable by one loop iteration: set on a transport
error, left untouched on a response. -/
def emAfter (o : AttemptOutcome) (em : Option String) : Option String :=
  match o with | .response _ => em | .transportError m => some m

/-- Whether the iteration saw a transport error (`err != nil` in the source). -/
def isErrOf (o : AttemptOutcome) : Bool :=
  match o with | .response _ => false | .transportError _ => true

def probeLoop (env : Nat → AttemptOutcome) (maxAttempts attempts backoff : Nat)
    (sc : Option Int) (em : Option String) (sleeps : List Nat) : ProbeRun :=
  let a := attempts + 1
  let o := env a
  let sc' := scAfter o sc
  let em' := emAfter o em
  let code := sc'.getD 0
  if h : a < maxAttempts ∧ (isErrOf o = true ∨ (500 ≤ code ∧ code ≤ 599)) then
    probeLoop env maxAttempts a (backoff * 2) sc' em' (sleeps ++ [backoff])
  else
    { attempts := a, statusCode := sc', errMsg := em', sleeps := sleeps }
termination_by maxAttempts - attempts
decreasing_by simp only [a] at *; omega

/-- `performCheck` with the constants of pool.go lines 87-89:
`attempts = 0`, `maxAttempts = 3`, `backoff = 200ms`. -/
def performCheck (env : Nat → AttemptOutcome) : ProbeRun :=
  probeLoop env 3 0 200 none none []

/-- After the loop, exactly one `CheckResult` is built and handed to
`CreateCheckResult` (pool.go lines 136-146), carrying the final values of the
`statusCode` and `errMsg` variables. -/
def performCheckWrites (env : Nat → AttemptOutcome) :
    List (Option Int × Option String) :=
  [((performCheck env).statusCode, (performCheck env).errMsg)]

end Linkwatch

namespace Linkwatch

/-! Unfolding lemmas for `probeLoop` (well-founded recursion does not reduce
definitionally). -/

theorem probeLoop_eq (env : Nat → AttemptOutcome)
    (maxAttempts attempts backoff : Nat) (sc : Option Int) (em : Option String)
    (sleeps : List Nat) :
    probeLoop env maxAttempts attempts backoff sc em sleeps =
      (let a := attempts + 1
       let o := env a
       let sc' := scAfter o sc
       let em' := emAfter o em
       let code := sc'.getD 0
       if a < maxAttempts ∧ (isErrOf o = true ∨ (500 ≤ code ∧ code ≤ 599)) then
         probeLoop env maxAttempts a (backoff * 2) sc' em' (sleeps ++ [backoff])
       else
         { attempts := a, statusCode := sc', errMsg := em', sleeps := sleeps }) := by
  rw [probeLoop]
  simp only []
  split
  · rfl
  · rfl

/-- The loop guard of one iteration depends only on the outcome of the current
attempt and agrees with `retryableOutcome`: on a response the just-updated
`statusCode` holds that response's code, and on a transport error the guard is
true regardless of the (possibly stale) `statusCode`. -/
theorem guard_iff_retryable (o : AttemptOutcome) (sc : Option Int) :
    (isErrOf o = true ∨ (500 ≤ (scAfter o sc).getD 0 ∧ (scAfter o sc).getD 0 ≤ 599)) ↔
      retryableOutcome o = true := by
  cases o with
  | response c =>
      simp [isErrOf, scAfter, retryableOutcome, decide_eq_true_eq]
  | transportError m =>
      simp [isErrOf, scAfter, retryableOutcome]

theorem probeLoop_continue (env : Nat → AttemptOutcome)
    (maxAttempts attempts backoff : Nat) (sc : Option Int) (em : Option String)
    (sleeps : List Nat) (hlt : attempts + 1 < maxAttempts)
    (hr : retryableOutcome (env (attempts + 1)) = true) :
    probeLoop env maxAttempts attempts backoff sc em sleeps =
      probeLoop env maxAttempts (attempts + 1) (backoff * 2)
        (scAfter (env (attempts + 1)) sc) (emAfter (env (attempts + 1)) em)
        (sleeps ++ [backoff]) := by
  rw [probeLoop_eq]
  simp only []
  rw [if_pos ⟨hlt, (guard_iff_retryable (env (attempts + 1)) sc).mpr hr⟩]

theorem probeLoop_stop (env : Nat → AttemptOutcome)
    (maxAttempts attempts backoff : Nat) (sc : Option Int) (em : Option String)
    (sleeps : List Nat)
    (hstop : ¬(attempts + 1 < maxAttempts ∧
      retryableOutcome (env (attempts + 1)) = true)) :
    probeLoop env maxAttempts attempts backoff sc em sleeps =
      { attempts := attempts + 1,
        statusCode := scAfter (env (attempts + 1)) sc,
        errMsg := emAfter (env (attempts + 1)) em,
        sleeps := sleeps } := by
  rw [probeLoop_eq]
  simp only []
  rw [if_neg]
  intro hcon
  exact hstop ⟨hcon.1, (guard_iff_retryable (env (attempts + 1)) sc).mp hcon.2⟩

end Linkwatch

namespace Linkwatch

/-- Attempt environment: the first attempt receives an HTTP 500 response,
every later attempt fails at transport level. -/
def envFiveHundredThenError : Nat → AttemptOutcome :=
  fun n => if n = 1 then .response 500 else .transportError "connection refused"

/-- C1: the spec invariant "exactly one of `status_code` / `error` is present"
fails on the code.  When the first attempt receives a 5xx response and the
remaining attempts fail at transport level, `statusCode` keeps the value set
by the first attempt and `errMsg` is set by the last one, so the single
persisted `CheckResult` carries *both* fields non-null. -/
theorem performCheck_bug_bothStatusAndError :
    performCheckWrites envFiveHundredThenError =
      [(some 500, some "connection refused")] ∧
    (performCheck envFiveHundredThenError).statusCode = some 500 ∧
    (performCheck envFiveHundredThenError).errMsg = some "connection refused" := by
  have e1 : performCheck envFiveHundredThenError =
      { attempts := 3, statusCode := some 500,
        errMsg := some "connection refused", sleeps := [200, 400] } := by
    rw [performCheck,
      probeLoop_continue _ 3 0 200 none none [] (by omega) (by rfl),
      probeLoop_continue _ 3 1 400 _ _ _ (by omega) (by rfl),
      probeLoop_stop _ 3 2 800 _ _ _ (by simp)]
    rfl
  refine ⟨?_, ?_, ?_⟩ <;> simp [performCheckWrites, e1]

/-- C4: the retry policy of `performCheck`.  For every attempt environment:
at most 3 attempts are made; a second (resp. third) attempt is made iff the
attempt count is below 3 and the previous outcome was retryable (transport
error or 5xx); the sleeps before retries are 200ms then 400ms (starting at
200ms, doubling); and exactly one `CheckResult` is written per probe. -/
theorem performCheck_retryPolicy (env : Nat → AttemptOutcome) :
    (performCheck env).attempts ≤ 3 ∧
    (2 ≤ (performCheck env).attempts ↔
      1 < 3 ∧ retryableOutcome (env 1) = true) ∧
    (3 ≤ (performCheck env).attempts ↔
      2 < 3 ∧ retryableOutcome (env 1) = true ∧ retryableOutcome (env 2) = true) ∧
    (performCheck env).sleeps =
      (List.range ((performCheck env).attempts - 1)).map (fun i => 200 * 2 ^ i) ∧
    (performCheckWrites env).length = 1 := by
  by_cases hr1 : retryableOutcome (env 1) = true
  · by_cases hr2 : retryableOutcome (env 2) = true
    · have hrun :
          (performCheck env).attempts = 3 ∧ (performCheck env).sleeps = [200, 400] := by
        rw [performCheck, probeLoop_continue env 3 0 200 none none [] (by omega) hr1,
          probeLoop_continue env 3 1 400 _ _ _ (by omega) hr2,
          probeLoop_stop env 3 2 800 _ _ _ (by simp)]
        exact ⟨rfl, by simp⟩
      refine ⟨?_, ?_, ?_, ?_, rfl⟩ <;>
        simp [hrun.1, hrun.2, hr1, hr2, List.range_succ]
    · have hrun :
          (performCheck env).attempts = 2 ∧ (performCheck env).sleeps = [200] := by
        rw [performCheck, probeLoop_continue env 3 0 200 none none [] (by omega) hr1,
          probeLoop_stop env 3 1 400 _ _ _ (fun h => hr2 h.2)]
        exact ⟨rfl, by simp⟩
      refine ⟨?_, ?_, ?_, ?_, rfl⟩ <;>
        simp [hrun.1, hrun.2, hr1, hr2, List.range_succ]
  · have hrun :
        (performCheck env).attempts = 1 ∧ (performCheck env).sleeps = [] := by
      rw [performCheck, probeLoop_stop env 3 0 200 none none [] (fun h => hr1 h.2)]
      exact ⟨rfl, rfl⟩
    refine ⟨?_, ?_, ?_, ?_, rfl⟩ <;>
      simp [hrun.1, hrun.2, hr1]

end Linkwatch

namespace Linkwatch

/-- C6 counterexample: the handlers do not clamp an out-of-range `limit` to
the nearest bound; they fall back to the default.  A supplied limit of 600 on
`GET /v1/targets` yields 50 (the claim says 500); a supplied limit of 0
yields 50 (the claim says 1); a supplied limit of 2000 on the results
endpoint yields 100 (the claim says 1000). -/
theorem limit_not_clamped :
    listTargetsLimit (.value 600) = 50 ∧ listTargetsLimit (.value 600) ≠ 500 ∧
    listTargetsLimit (.value 0) = 50 ∧ listTargetsLimit (.value 0) ≠ 1 ∧
    listResultsLimit (.value 2000) = 100 ∧ listResultsLimit (.value 2000) ≠ 1000 := by
  refine ⟨?_, ?_, ?_, ?_, ?_, ?_⟩ <;> decide

/-- C6 amended: the effective limit is the supplied limit when it lies in
`[1, 500]` (targets) resp. `[1, 1000]` (results); in every other case —
absent, not an integer, or out of range — the default (50 resp. 100) is
used.  The effective limit always lies inside the valid range. -/
theorem limit_effective (v : Int) :
    (listTargetsLimit (.value v) = v ↔ 1 ≤ v ∧ v ≤ 500) ∧
    (¬(1 ≤ v ∧ v ≤ 500) → listTargetsLimit (.value v) = 50) ∧
    (listResultsLimit (.value v) = v ↔ 1 ≤ v ∧ v ≤ 1000) ∧
    (¬(1 ≤ v ∧ v ≤ 1000) → listResultsLimit (.value v) = 100) ∧
    listTargetsLimit .absent = 50 ∧ listTargetsLimit .notAnInt = 50 ∧
    listResultsLimit .absent = 100 ∧ listResultsLimit .notAnInt = 100 ∧
    (1 ≤ listTargetsLimit (.value v) ∧ listTargetsLimit (.value v) ≤ 500) ∧
    (1 ≤ listResultsLimit (.value v) ∧ listResultsLimit (.value v) ≤ 1000) := by
  simp only [listTargetsLimit, listResultsLimit]
  split <;> split <;> constructor <;> first | omega | (constructor <;> omega) |
    (refine ⟨?_, ?_, ?_, ?_, ?_, ?_, ?_, ?_⟩ <;> first | rfl | omega | (constructor <;> omega))

/-- Witness for `limit_effective` at the concrete out-of-range input 600. -/
theorem limit_effective_witness :
    ¬(1 ≤ (600 : Int) ∧ (600 : Int) ≤ 500) ∧ listTargetsLimit (.value 600) = 50 :=
  ⟨by decide, (limit_effective 600).2.1 (by decide)⟩

end Linkwatch

namespace Linkwatch

/-! ## The SQLite store (`internal/storage/sqlite/store.go`)

Rows are modelled as lists in insertion order.  `created_at` / `checked_at`
are kept exactly as stored: TEXT columns holding the Go
`time.Time.Format(time.RFC3339Nano)` rendering, compared by SQLite with the
default BINARY collation, i.e. bytewise — which for the ASCII timestamp
strings coincides with Lean's `String` ordering.  Generated ids are assumed
fresh (they are 12 random bytes hex-encoded), so `id` PRIMARY KEY conflicts
do not arise.  `ORDER BY` is modelled by a stable insertion sort on the
corresponding key.
-/

structure Target where
  id : String
  url : String
  canonicalURL : String
  host : String
  createdAt : String
deriving DecidableEq, Repr

structure CheckResult where
  id : String
  targetID : String
  checkedAt : String
  statusCode : Option Int
  latencyMS : Int
  error : Option String
deriving DecidableEq, Repr

structure StoreState where
  targets : List Target
  idempotencyKeys : List (String × String)
  checkResults : List CheckResult
deriving DecidableEq

/-- The two storage sentinels of `internal/storage` (`ErrDuplicateKey`,
`ErrNotFound`).  I/O failures do not arise in the pure model. -/
inductive StoreErr where
  | duplicateKey
  | notFound
deriving DecidableEq

structure CreateTargetResult where
  target : Option Target
  err : Option StoreErr
  state : StoreState
deriving DecidableEq

/-- `SELECT ... FROM targets WHERE id = ?` (at most one row: primary key). -/
def findTargetByID (st : StoreState) (id : String) : Option Target :=
  st.targets.find? (fun t => t.id = id)

/-- `SELECT ... FROM targets WHERE canonical_url = ?` (at most one row:
UNIQUE constraint). -/
def findTargetByCanonicalURL (st : StoreState) (cu : String) : Option Target :=
  st.targets.find? (fun t => t.canonicalURL = cu)

/-- `SELECT target_id FROM idempotency_keys WHERE key = ?`. -/
def lookupIdempotencyKey (st : StoreState) (k : String) : Option String :=
  (st.idempotencyKeys.find? (fun p => p.1 = k)).map (fun p => p.2)

/-- The insert part of `CreateTarget` (store.go lines 109-140):
`INSERT ... ON CONFLICT(canonical_url) DO NOTHING`; when no row was inserted
the pre-existing row is fetched and returned with `ErrDuplicateKey` and the
transaction is rolled back (no state change, in particular no idempotency
record); otherwise the target row — and, when a key was supplied, the
idempotency record — are committed together. -/
def createTargetInsert (st : StoreState) (target : Target)
    (idempotencyKey : Option String) : CreateTargetResult :=
  match findTargetByCanonicalURL st target.canonicalURL with
  | some existing => ⟨some existing, some .duplicateKey, st⟩
  | none =>
      let withTarget : StoreState := { st with targets := st.targets ++ [target] }
      match idempotencyKey with
      | some k =>
          ⟨some target, none,
            { withTarget with
              idempotencyKeys := withTarget.idempotencyKeys ++ [(k, target.id)] }⟩
      | none => ⟨some target, none, withTarget⟩

/-- `SQLiteStore.CreateTarget` (store.go lines 90-141).  When the supplied
idempotency key is already recorded, the previously associated target is
fetched and returned as `getTargetByIDTx` returns it: with a `nil` error when
the row exists (and `ErrNotFound` otherwise) — *not* with `ErrDuplicateKey`. -/
def CreateTarget (st : StoreState) (target : Target)
    (idempotencyKey : Option String) : CreateTargetResult :=
  match idempotencyKey with
  | some k =>
      match lookupIdempotencyKey st k with
      | some existingTargetID =>
          match findTargetByID st existingTargetID with
          | some t => ⟨some t, none, st⟩
          | none => ⟨none, some .notFound, st⟩
      | none => createTargetInsert st target idempotencyKey
  | none => createTargetInsert st target idempotencyKey

/-- `POST /v1/targets`, steps 6-7 of the handler (handlers.go lines 76-92),
starting from the already-built target value: call the store, map
`ErrDuplicateKey` to 200, any other error to 500, and success to 201. -/
def handleCreateTarget (st : StoreState) (target : Target)
    (idempotencyKey : Option String) : (Nat × Option Target) × StoreState :=
  let r := CreateTarget st target idempotencyKey
  match r.err with
  | some .duplicateKey => ((200, r.target), r.state)
  | some _ => ((500, none), r.state)
  | none => ((201, r.target), r.state)

/-- Lexicographic strict order on character lists, by code point.  On the
ASCII strings stored here this is exactly SQLite's BINARY collation
(bytewise memcmp), since UTF-8 byte order agrees with code-point order. -/
def charsLt : List Char → List Char → Bool
  | [], [] => false
  | [], _ :: _ => true
  | _ :: _, [] => false
  | a :: as, b :: bs =>
      if a < b then true else if b < a then false else charsLt as bs

/-- SQLite TEXT comparison `a < b`. -/
def textLt (a b : String) : Bool := charsLt a.data b.data

/-- SQLite TEXT comparison `a ≤ b`. -/
def textLe (a b : String) : Bool := !charsLt b.data a.data

/-- `ORDER BY created_at, id` on the TEXT representation: bytewise
lexicographic comparison of the `(created_at, id)` pair. -/
def rowPairLe (t u : Target) : Bool :=
  if textLt t.createdAt u.createdAt then true
  else if textLt u.createdAt t.createdAt then false
  else textLe t.id u.id

def insertRow (t : Target) : List Target → List Target
  | [] => [t]
  | u :: us => if rowPairLe t u then t :: u :: us else u :: insertRow t us

def sortRows : List Target → List Target
  | [] => []
  | t :: ts => insertRow t (sortRows ts)

/-- The row-value comparison `(created_at, id) > (?, ?)` of store.go line
186, again on the TEXT representation. -/
def cursorLt (cur : String × String) (t : Target) : Bool :=
  if textLt cur.1 t.createdAt then true
  else if textLt t.createdAt cur.1 then false
  else textLt cur.2 t.id

structure ListTargetsParams where
  host : String
  after : Option (String × String)
  limit : Nat
deriving DecidableEq

/-- `SQLiteStore.ListTargets` (store.go lines 176-207).  `after = none`
models `AfterTime.IsZero() || AfterID == ""`, in which case no cursor clause
is added. -/
def ListTargets (st : StoreState) (p : ListTargetsParams) : List Target :=
  let rows := st.targets.filter (fun t =>
    (p.host = "" || t.host = p.host) &&
    (match p.after with
     | none => true
     | some cur => cursorLt cur t))
  (sortRows rows).take p.limit

/-- `ORDER BY checked_at DESC` on the TEXT representation. -/
def resultDescLe (a b : CheckResult) : Bool := textLe b.checkedAt a.checkedAt

def insertResult (r : CheckResult) : List CheckResult → List CheckResult
  | [] => [r]
  | u :: us => if resultDescLe r u then r :: u :: us else u :: insertResult r us

def sortResultsDesc : List CheckResult → List CheckResult
  | [] => []
  | r :: rs => insertResult r (sortResultsDesc rs)

structure ListResultsParams where
  targetID : String
  since : Option String
  limit : Nat
deriving DecidableEq

/-- `SQLiteStore.ListCheckResultsByTargetID` (store.go lines 244-270):
filter on `target_id`, strict `checked_at > since` when a `since` bound is
present, order by `checked_at DESC`, limit. -/
def ListCheckResultsByTargetID (st : StoreState) (p : ListResultsParams) :
    List CheckResult :=
  let rows := st.checkResults.filter (fun r =>
    r.targetID = p.targetID &&
    (match p.since with
     | none => true
     | some s => textLt s r.checkedAt))
  (sortResultsDesc rows).take p.limit

end Linkwatch

namespace Linkwatch

/-- Empty store (fresh database). -/
def emptyStore : StoreState := ⟨[], [], []⟩

/-- First request's target value for the idempotency-replay scenario. -/
def tgtA : Target :=
  ⟨"t_000000000000000000000001", "https://a.com", "https://a.com", "a.com",
    "2024-01-01T00:00:00Z"⟩

/-- Second request's target value: same URL (hence same canonical URL and
host), fresh generated id. -/
def tgtA2 : Target := { tgtA with id := "t_000000000000000000000002" }

/-- C2: idempotency-key replay does not behave as specified.  Both POSTs use
key "k1" and the same URL.  The first responds 201 and stores the target; the
replay returns the previously associated target (same id) and changes no
state, but the store's replay path returns a `nil` error instead of
`ErrDuplicateKey`, so the handler responds **201**, not 200. -/
theorem CreateTarget_idempotencyReplay_bug :
    (handleCreateTarget emptyStore tgtA (some "k1")).1.1 = 201 ∧
    (handleCreateTarget (handleCreateTarget emptyStore tgtA (some "k1")).2
      tgtA2 (some "k1")).1.1 = 201 ∧
    (handleCreateTarget (handleCreateTarget emptyStore tgtA (some "k1")).2
      tgtA2 (some "k1")).1.1 ≠ 200 ∧
    (handleCreateTarget (handleCreateTarget emptyStore tgtA (some "k1")).2
      tgtA2 (some "k1")).1.2 = some tgtA ∧
    (handleCreateTarget (handleCreateTarget emptyStore tgtA (some "k1")).2
      tgtA2 (some "k1")).2 = (handleCreateTarget emptyStore tgtA (some "k1")).2 ∧
    (CreateTarget (handleCreateTarget emptyStore tgtA (some "k1")).2
      tgtA2 (some "k1")).err = none := by
  refine ⟨rfl, rfl, by decide, rfl, rfl, rfl⟩

/-- When the supplied idempotency key (if any) is not yet recorded,
`CreateTarget` proceeds to the insert step. -/
theorem CreateTarget_freshKey (st : StoreState) (t : Target) (k : Option String)
    (hk : ∀ s, k = some s → lookupIdempotencyKey st s = none) :
    CreateTarget st t k = createTargetInsert st t k := by
  cases k with
  | none => rfl
  | some s =>
      have := hk s rfl
      simp [CreateTarget, this]

/-- C3: canonical-URL deduplication.  If a first `CreateTarget` call (whose
key, if any, was not yet recorded) succeeded with status Created, then a
second call whose target has the same `canonical_url` inserts nothing: it
returns the pre-existing target with `ErrDuplicateKey` and leaves the store
unchanged — in particular no idempotency record is written even when the
second call supplies a fresh key. -/
theorem CreateTarget_canonicalDedup (st : StoreState) (t1 t2 : Target)
    (k1 k2 : Option String)
    (hk1 : ∀ k, k1 = some k → lookupIdempotencyKey st k = none)
    (hcreated : (CreateTarget st t1 k1).err = none)
    (hk2 : ∀ k, k2 = some k →
      lookupIdempotencyKey (CreateTarget st t1 k1).state k = none)
    (hcu : t2.canonicalURL = t1.canonicalURL) :
    CreateTarget (CreateTarget st t1 k1).state t2 k2 =
      ⟨some t1, some .duplicateKey, (CreateTarget st t1 k1).state⟩ := by
  have hfirst : CreateTarget st t1 k1 = createTargetInsert st t1 k1 :=
    CreateTarget_freshKey st t1 k1 hk1
  have hnone : findTargetByCanonicalURL st t1.canonicalURL = none := by
    cases hfind : findTargetByCanonicalURL st t1.canonicalURL with
    | none => rfl
    | some ex =>
        rw [hfirst] at hcreated
        simp [createTargetInsert, hfind] at hcreated
  have hfind1 :
      findTargetByCanonicalURL (CreateTarget st t1 k1).state t2.canonicalURL =
        some t1 := by
    have hts : (CreateTarget st t1 k1).state.targets = st.targets ++ [t1] := by
      rw [hfirst]
      cases k1 <;> simp [createTargetInsert, hnone]
    rw [findTargetByCanonicalURL, hts, List.find?_append, hcu]
    have h0 : st.targets.find? (fun t => t.canonicalURL = t1.canonicalURL) = none :=
      hnone
    rw [h0]
    simp
  have hsecond : CreateTarget (CreateTarget st t1 k1).state t2 k2 =
      createTargetInsert (CreateTarget st t1 k1).state t2 k2 :=
    CreateTarget_freshKey _ t2 k2 hk2
  rw [hsecond, createTargetInsert, hfind1]

/-- Witness for `CreateTarget_canonicalDedup`: two concrete registrations of
the same canonical URL, the second with a fresh idempotency key. -/
theorem CreateTarget_canonicalDedup_witness :
    (∀ k, (none : Option String) = some k →
      lookupIdempotencyKey emptyStore k = none) ∧
    (CreateTarget emptyStore tgtA none).err = none ∧
    (∀ k, (some "k9" : Option String) = some k →
      lookupIdempotencyKey (CreateTarget emptyStore tgtA none).state k = none) ∧
    tgtA2.canonicalURL = tgtA.canonicalURL ∧
    CreateTarget (CreateTarget emptyStore tgtA none).state tgtA2 (some "k9") =
      ⟨some tgtA, some .duplicateKey, (CreateTarget emptyStore tgtA none).state⟩ := by
  refine ⟨?_, ?_, ?_, ?_, ?_⟩
  · intro k h
    cases h
  · rfl
  · intro k h
    cases h
    rfl
  · rfl
  · exact CreateTarget_canonicalDedup emptyStore tgtA tgtA2 none (some "k9")
      (fun k h => by cases h) rfl (fun k h => by cases h; rfl) rfl

end Linkwatch

namespace Linkwatch

/-- A target whose `created_at` carries no fractional seconds.  Go's
`Format(time.RFC3339Nano)` omits the fractional part when it is zero. -/
def tgtWhole : Target :=
  ⟨"t_a", "http://a.example/x", "http://a.example/x", "a.example",
    "2024-01-01T10:00:00Z"⟩

/-- A target created half a second *later* than `tgtWhole`; its `created_at`
carries a fractional part. -/
def tgtFrac : Target :=
  ⟨"t_b", "http://b.example/x", "http://b.example/x", "b.example",
    "2024-01-01T10:00:00.5Z"⟩

def stMixed : StoreState := ⟨[tgtWhole, tgtFrac], [], []⟩

/-- C5: `ListTargets` orders rows by the RFC3339Nano *text* (SQLite TEXT
column, bytewise collation), not by the timestamp it denotes.  Because
`'.' < 'Z'` bytewise, the row created at 10:00:00.5 ("t_b") is returned
*before* the row created half a second earlier at 10:00:00 ("t_a"): the
result is not ascending in `created_at`.  The cursor clause compares the same
text, so after paging past "t_b" with limit 1 the next page returns "t_a" —
the chronologically earlier row arrives on the later page. -/
theorem ListTargets_textOrdering_bug :
    (ListTargets stMixed ⟨"", none, 50⟩).map (fun t => t.id) = ["t_b", "t_a"] ∧
    tgtWhole.createdAt = "2024-01-01T10:00:00Z" ∧
    tgtFrac.createdAt = "2024-01-01T10:00:00.5Z" ∧
    (ListTargets stMixed ⟨"", none, 1⟩).map (fun t => t.id) = ["t_b"] ∧
    (ListTargets stMixed ⟨"", some (tgtFrac.createdAt, tgtFrac.id), 50⟩).map
      (fun t => t.id) = ["t_a"] := by
  refine ⟨?_, rfl, rfl, ?_, ?_⟩ <;> decide

end Linkwatch

namespace Linkwatch

/-! ## List handlers (`handlers.go` lines 96-206)

The handlers are embedded with the standard-library primitives they call
taken as *parameters* (arbitrary functions), so every theorem about them
holds for any behaviour of those primitives:

* `atoi` — `strconv.Atoi`;
* `b64dec` — `base64.URLEncoding.DecodeString` (`none` = error);
* `b64enc` — `base64.URLEncoding.EncodeToString`;
* `parseNano` / `parseSec` — `time.Parse(time.RFC3339Nano, ·)` resp.
  `time.Parse(time.RFC3339, ·)`; a parsed `time.Time` is represented by the
  `Format(time.RFC3339Nano)` text that the store layer will bind into the
  SQL query, so the parser model returns that text directly (`none` = parse
  error).

Absent query parameters are modelled as `q.Get` returns them: the empty
string. -/

/-- `strings.ToLower` restricted to ASCII (hosts here are ASCII). -/
def asciiToLower (s : String) : String :=
  String.mk (s.data.map (fun c =>
    if 'A' ≤ c ∧ c ≤ 'Z' then Char.ofNat (c.toNat + 32) else c))

/-- `strings.TrimSpace`. -/
def trimSpace (s : String) : String :=
  String.mk (((s.data.dropWhile (fun c => c.isWhitespace)).reverse.dropWhile
    (fun c => c.isWhitespace)).reverse)

/-- `strings.SplitN(s, "|", 2)`: `some (before, after)` when `s` contains a
`'|'` (split at the first one), `none` when it does not (one-element split,
so the `len(parts) == 2` check fails). -/
def splitPipe2 : List Char → Option (List Char × List Char)
  | [] => none
  | c :: cs =>
      if c = '|' then some ([], cs)
      else match splitPipe2 cs with
        | some (l, r) => some (c :: l, r)
        | none => none

def splitPipe2Str (s : String) : Option (String × String) :=
  (splitPipe2 s.data).map (fun p => (String.mk p.1, String.mk p.2))

/-- `time.Time.IsZero` rendered through RFC3339Nano: the zero time prints as
this text. -/
def zeroTimeText : String := "0001-01-01T00:00:00Z"

structure ListTargetsQuery where
  limit : String
  host : String
  pageToken : String
deriving DecidableEq

structure TargetsPage where
  items : List Target
  nextPageToken : Option String
deriving DecidableEq

/-- `GET /v1/targets` (handlers.go lines 96-149).  Malformed `limit` falls
back to 50; a `page_token` that fails base64url decoding, does not contain
`'|'`, or whose time part does not parse, leaves the cursor unset (first
page).  The store cursor is used only when the parsed time is non-zero and
the id part is non-empty (store.go line 184).  The response is always 200
with an items list, plus a `next_page_token` exactly when the page is full. -/
def handleListTargets (atoi : String → Option Int)
    (b64dec : String → Option String) (b64enc : String → String)
    (parseNano : String → Option String) (st : StoreState)
    (q : ListTargetsQuery) : Nat × TargetsPage :=
  let limit : Int :=
    if q.limit = "" then 50
    else match atoi q.limit with
      | some v => if 0 < v ∧ v ≤ 500 then v else 50
      | none => 50
  let host := asciiToLower (trimSpace q.host)
  let after : Option (String × String) :=
    if q.pageToken = "" then none
    else match b64dec q.pageToken with
      | none => none
      | some decoded =>
          match splitPipe2Str decoded with
          | none => none
          | some (p0, p1) =>
              match parseNano p0 with
              | none => none
              | some tText =>
                  if tText ≠ zeroTimeText ∧ p1 ≠ "" then some (tText, p1) else none
  let items := ListTargets st ⟨host, after, limit.toNat⟩
  let nextToken : Option String :=
    if items.length = limit.toNat then
      match items.getLast? with
      | some last => some (b64enc (last.createdAt ++ "|" ++ last.id))
      | none => none
    else none
  (200, ⟨items, nextToken⟩)

structure ResultsQuery where
  limit : String
  since : String
deriving DecidableEq

/-- `GET /v1/targets/.../results` (handlers.go lines 152-206): 404 when the
target does not exist; otherwise malformed `limit` falls back to 100 and a
`since` value that does not parse as RFC3339 is ignored (no filter); the
response is 200 with the results list. -/
def handleListCheckResults (atoi : String → Option Int)
    (parseSec : String → Option String) (st : StoreState) (targetID : String)
    (q : ResultsQuery) : Nat × Option (List CheckResult) :=
  match findTargetByID st targetID with
  | none => (404, none)
  | some _ =>
      let limit : Int :=
        if q.limit = "" then 100
        else match atoi q.limit with
          | some v => if 0 < v ∧ v ≤ 1000 then v else 100
          | none => 100
      let since : Option String :=
        if q.since = "" then none
        else match parseSec q.since with
          | some t => some t
          | none => none
      (200, some (ListCheckResultsByTargetID st ⟨targetID, since, limit.toNat⟩))

end Linkwatch

namespace Linkwatch

/-- C10: malformed query parameters never produce an error response.  For
every behaviour of the standard-library primitives and every store state:
`GET /v1/targets` always responds 200; a `limit` that does not parse behaves
exactly like an absent `limit` (default); a `page_token` that fails base64url
decoding, or decodes to text without a `'|'`, or whose time part does not
parse, behaves exactly like an absent token (first page).  For
`GET /v1/targets/.../results` on an existing target: the response is 200; a
`limit` that does not parse behaves like an absent one, and a `since` value
that does not parse behaves like an absent one (no filter). -/
theorem listHandlers_tolerateMalformedQuery
    (atoi : String → Option Int) (b64dec : String → Option String)
    (b64enc : String → String) (parseNano parseSec : String → Option String)
    (st : StoreState) (q : ListTargetsQuery) (targetID : String)
    (rq : ResultsQuery) (t : Target)
    (hexists : findTargetByID st targetID = some t) :
    (handleListTargets atoi b64dec b64enc parseNano st q).1 = 200 ∧
    (atoi q.limit = none →
      handleListTargets atoi b64dec b64enc parseNano st q =
        handleListTargets atoi b64dec b64enc parseNano st { q with limit := "" }) ∧
    (b64dec q.pageToken = none →
      handleListTargets atoi b64dec b64enc parseNano st q =
        handleListTargets atoi b64dec b64enc parseNano st
          { q with pageToken := "" }) ∧
    (∀ d, b64dec q.pageToken = some d → splitPipe2Str d = none →
      handleListTargets atoi b64dec b64enc parseNano st q =
        handleListTargets atoi b64dec b64enc parseNano st
          { q with pageToken := "" }) ∧
    (∀ d p0 p1, b64dec q.pageToken = some d → splitPipe2Str d = some (p0, p1) →
      parseNano p0 = none →
      handleListTargets atoi b64dec b64enc parseNano st q =
        handleListTargets atoi b64dec b64enc parseNano st
          { q with pageToken := "" }) ∧
    (handleListCheckResults atoi parseSec st targetID rq).1 = 200 ∧
    (atoi rq.limit = none →
      handleListCheckResults atoi parseSec st targetID rq =
        handleListCheckResults atoi parseSec st targetID { rq with limit := "" }) ∧
    (parseSec rq.since = none →
      handleListCheckResults atoi parseSec st targetID rq =
        handleListCheckResults atoi parseSec st targetID { rq with since := "" }) := by
  refine ⟨rfl, ?_, ?_, ?_, ?_, ?_, ?_, ?_⟩
  · intro h
    by_cases hl : q.limit = "" <;> simp [handleListTargets, hl, h]
  · intro h
    by_cases ht : q.pageToken = "" <;> simp [handleListTargets, ht, h]
  · intro d hd hsplit
    by_cases ht : q.pageToken = "" <;> simp [handleListTargets, ht, hd, hsplit]
  · intro d p0 p1 hd hsplit hparse
    by_cases ht : q.pageToken = "" <;> simp [handleListTargets, ht, hd, hsplit, hparse]
  · simp [handleListCheckResults, hexists]
  · intro h
    by_cases hl : rq.limit = "" <;> simp [handleListCheckResults, hexists, hl, h]
  · intro h
    by_cases hs : rq.since = "" <;> simp [handleListCheckResults, hexists, hs, h]

/-- Witness for `listHandlers_tolerateMalformedQuery` with concrete
primitives that reject everything, a malformed query, and an existing
target. -/
theorem listHandlers_tolerateMalformedQuery_witness :
    findTargetByID stMixed "t_a" = some tgtWhole ∧
    (handleListTargets (fun _ => none) (fun _ => none) (fun _ => "")
      (fun _ => none) stMixed ⟨"oops", "", "notb64"⟩).1 = 200 ∧
    (handleListCheckResults (fun _ => none) (fun _ => none) stMixed "t_a"
      ⟨"-7", "yesterday"⟩).1 = 200 :=
  ⟨rfl,
    (listHandlers_tolerateMalformedQuery (fun _ => none) (fun _ => none)
      (fun _ => "") (fun _ => none) (fun _ => none) stMixed
      ⟨"oops", "", "notb64"⟩ "t_a" ⟨"-7", "yesterday"⟩ tgtWhole rfl).1,
    (listHandlers_tolerateMalformedQuery (fun _ => none) (fun _ => none)
      (fun _ => "") (fun _ => none) (fun _ => none) stMixed
      ⟨"oops", "", "notb64"⟩ "t_a" ⟨"-7", "yesterday"⟩ tgtWhole rfl).2.2.2.2.2.1⟩

end Linkwatch

namespace Linkwatch

/-! ## Host limiter (`internal/checker/limiter.go`) and probe interleaving

`HostLimiter` is a set of host strings guarded by a mutex; `Acquire` and
`Release` each run entirely under the lock, so they are atomic steps.  A
probe execution (`performCheck`, pool.go lines 80-147) interacts with the
limiter as: acquire-or-skip on entry, and release (deferred) when it
finishes, after which its single `CheckResult` write happens.  This is
modelled as a labelled transition system over the pool state: each worker's
probe is a process with a phase, and steps interleave arbitrarily. -/

/-- `HostLimiter.Acquire` (limiter.go lines 20-30): atomically insert the
host if absent, reporting whether it was inserted. -/
def Acquire (hosts : List String) (h : String) : Bool × List String :=
  if h ∈ hosts then (false, hosts) else (true, hosts ++ [h])

/-- `HostLimiter.Release` (limiter.go lines 33-37): remove the host. -/
def Release (hosts : List String) (h : String) : List String :=
  hosts.filter (fun x => decide (x ≠ h))

inductive ProbePhase where
  | queued
  | probing
  | done
  | skipped
deriving DecidableEq

structure ProbeProc where
  host : String
  phase : ProbePhase
deriving DecidableEq

structure PoolState where
  limiter : List String
  probes : List ProbeProc
  written : List Nat
deriving DecidableEq

/-- One atomic step of some probe `i`:
`start` — `Acquire` succeeds, the probe enters its HTTP loop;
`skip` — `Acquire` fails, the probe returns without probing or writing;
`finish` — a probing probe completes: it releases its host (the deferred
`Release`) and persists its single `CheckResult`. -/
inductive PoolStep : PoolState → PoolState → Prop where
  | start (s : PoolState) (i : Nat) (p : ProbeProc)
      (hp : s.probes[i]? = some p) (hq : p.phase = .queued)
      (hacq : (Acquire s.limiter p.host).1 = true) :
      PoolStep s
        { s with limiter := (Acquire s.limiter p.host).2,
                 probes := s.probes.set i { p with phase := .probing } }
  | skip (s : PoolState) (i : Nat) (p : ProbeProc)
      (hp : s.probes[i]? = some p) (hq : p.phase = .queued)
      (hacq : (Acquire s.limiter p.host).1 = false) :
      PoolStep s { s with probes := s.probes.set i { p with phase := .skipped } }
  | finish (s : PoolState) (i : Nat) (p : ProbeProc)
      (hp : s.probes[i]? = some p) (hq : p.phase = .probing) :
      PoolStep s
        { s with limiter := Release s.limiter p.host,
                 probes := s.probes.set i { p with phase := .done },
                 written := s.written ++ [i] }

/-- Initial pool state for one scheduler tick: every submitted target's probe
is queued, the limiter set is empty, nothing written. -/
def initPool (hosts : List String) : PoolState :=
  ⟨[], hosts.map (fun h => ⟨h, .queued⟩), []⟩

inductive PoolReachable (init : PoolState) : PoolState → Prop where
  | refl : PoolReachable init init
  | step {s s' : PoolState} : PoolReachable init s → PoolStep s s' →
      PoolReachable init s'

/-- The inductive invariant: probing probes hold their host in the limiter
set; no two distinct probing probes share a host; written indices belong to
finished probes; no index is written twice. -/
def PoolInv (s : PoolState) : Prop :=
  (∀ (i : Nat) (pi : ProbeProc), s.probes[i]? = some pi →
    pi.phase = .probing → pi.host ∈ s.limiter) ∧
  (∀ (i j : Nat) (pi pj : ProbeProc), s.probes[i]? = some pi →
    s.probes[j]? = some pj →
    pi.phase = .probing → pj.phase = .probing → pi.host = pj.host → i = j) ∧
  (∀ i : Nat, i ∈ s.written → ∃ p : ProbeProc,
    s.probes[i]? = some p ∧ p.phase = .done) ∧
  s.written.Nodup

theorem poolInv_init (hosts : List String) : PoolInv (initPool hosts) := by
  refine ⟨?_, ?_, ?_, ?_⟩
  · intro i pi hpi hph
    simp [initPool] at hpi
    rcases hpi with ⟨h, -, hEq⟩
    rw [← hEq] at hph
    cases hph
  · intro i j pi pj hpi hpj hphi hphj hh
    simp [initPool] at hpi
    rcases hpi with ⟨h, -, hEq⟩
    rw [← hEq] at hphi
    cases hphi
  · intro i hi
    simp [initPool] at hi
  · simp [initPool]

end Linkwatch

namespace Linkwatch

theorem poolInv_step {s s' : PoolState} (hinv : PoolInv s) (hstep : PoolStep s s') :
    PoolInv s' := by
  obtain ⟨inv1, inv2, inv3, inv4⟩ := hinv
  cases hstep with
  | start i p hp hq hacq =>
      have hlen : i < s.probes.length := by
        by_contra hcon
        rw [List.getElem?_eq_none (by omega)] at hp
        cases hp
      have hnotin : p.host ∉ s.limiter := by
        intro hmem
        simp [Acquire, hmem] at hacq
      have hlim : (Acquire s.limiter p.host).2 = s.limiter ++ [p.host] := by
        simp [Acquire, hnotin]
      refine ⟨?_, ?_, ?_, inv4⟩
      · intro j pj hpj hph
        simp only [hlim]
        by_cases hij : i = j
        · subst hij
          rw [List.getElem?_set_self hlen] at hpj
          cases hpj
          simp
        · rw [List.getElem?_set_ne hij] at hpj
          exact List.mem_append_left _ (inv1 j pj hpj hph)
      · intro j k pj pk hpj hpk hphj hphk hh
        by_cases hij : i = j <;> by_cases hik : i = k
        · omega
        · subst hij
          rw [List.getElem?_set_self hlen] at hpj
          cases hpj
          rw [List.getElem?_set_ne hik] at hpk
          exact absurd (hh ▸ inv1 k pk hpk hphk) hnotin
        · subst hik
          rw [List.getElem?_set_self hlen] at hpk
          cases hpk
          rw [List.getElem?_set_ne hij] at hpj
          exact absurd (hh ▸ inv1 j pj hpj hphj) hnotin
        · rw [List.getElem?_set_ne hij] at hpj
          rw [List.getElem?_set_ne hik] at hpk
          exact inv2 j k pj pk hpj hpk hphj hphk hh
      · intro j hj
        obtain ⟨pj, hpj, hdone⟩ := inv3 j hj
        have hij : i ≠ j := by
          intro hEq
          subst hEq
          rw [hp] at hpj
          cases hpj
          rw [hq] at hdone
          cases hdone
        exact ⟨pj, by rw [List.getElem?_set_ne hij]; exact hpj, hdone⟩
  | skip i p hp hq hacq =>
      refine ⟨?_, ?_, ?_, inv4⟩
      · intro j pj hpj hph
        by_cases hij : i = j
        · subst hij
          have hlen : i < s.probes.length := by
            by_contra hcon
            rw [List.getElem?_eq_none (by omega)] at hp
            cases hp
          rw [List.getElem?_set_self hlen] at hpj
          cases hpj
          cases hph
        · rw [List.getElem?_set_ne hij] at hpj
          exact inv1 j pj hpj hph
      · intro j k pj pk hpj hpk hphj hphk hh
        have hlen : i < s.probes.length := by
          by_contra hcon
          rw [List.getElem?_eq_none (by omega)] at hp
          cases hp
        by_cases hij : i = j
        · subst hij
          rw [List.getElem?_set_self hlen] at hpj
          cases hpj
          cases hphj
        · by_cases hik : i = k
          · subst hik
            rw [List.getElem?_set_self hlen] at hpk
            cases hpk
            cases hphk
          · rw [List.getElem?_set_ne hij] at hpj
            rw [List.getElem?_set_ne hik] at hpk
            exact inv2 j k pj pk hpj hpk hphj hphk hh
      · intro j hj
        obtain ⟨pj, hpj, hdone⟩ := inv3 j hj
        have hij : i ≠ j := by
          intro hEq
          subst hEq
          rw [hp] at hpj
          cases hpj
          rw [hq] at hdone
          cases hdone
        exact ⟨pj, by rw [List.getElem?_set_ne hij]; exact hpj, hdone⟩
  | finish i p hp hq =>
      have hlen : i < s.probes.length := by
        by_contra hcon
        rw [List.getElem?_eq_none (by omega)] at hp
        cases hp
      refine ⟨?_, ?_, ?_, ?_⟩
      · intro j pj hpj hph
        by_cases hij : i = j
        · subst hij
          rw [List.getElem?_set_self hlen] at hpj
          cases hpj
          cases hph
        · rw [List.getElem?_set_ne hij] at hpj
          have hmem := inv1 j pj hpj hph
          have hne : pj.host ≠ p.host := by
            intro hEq
            exact hij (inv2 i j p pj hp hpj hq hph hEq.symm)
          simp [Release, List.mem_filter, hmem, hne]
      · intro j k pj pk hpj hpk hphj hphk hh
        by_cases hij : i = j
        · subst hij
          rw [List.getElem?_set_self hlen] at hpj
          cases hpj
          cases hphj
        · by_cases hik : i = k
          · subst hik
            rw [List.getElem?_set_self hlen] at hpk
            cases hpk
            cases hphk
          · rw [List.getElem?_set_ne hij] at hpj
            rw [List.getElem?_set_ne hik] at hpk
            exact inv2 j k pj pk hpj hpk hphj hphk hh
      · intro j hj
        rcases List.mem_append.mp hj with hj' | hj'
        · obtain ⟨pj, hpj, hdone⟩ := inv3 j hj'
          have hij : i ≠ j := by
            intro hEq
            subst hEq
            rw [hp] at hpj
            cases hpj
            rw [hq] at hdone
            cases hdone
          exact ⟨pj, by rw [List.getElem?_set_ne hij]; exact hpj, hdone⟩
        · have hji : j = i := by simpa using hj'
          subst hji
          exact ⟨{ p with phase := .done }, List.getElem?_set_self hlen, rfl⟩
      · have hniw : i ∉ s.written := by
          intro hmem
          obtain ⟨pj, hpj, hdone⟩ := inv3 i hmem
          rw [hp] at hpj
          cases hpj
          rw [hq] at hdone
          cases hdone
        simp [List.nodup_append, inv4, hniw]

/-- C9: per-host mutual exclusion.  In every state reachable from a
scheduler tick's initial pool state: no two distinct probes are in flight
(`probing`) against the same host; an in-flight probe's host is held in the
limiter set (so `Acquire` of that host fails, returning `true` only when the
host was absent); a probe that failed to acquire (`skipped`) has written no
`CheckResult`; and no probe's result is written twice. -/
theorem hostLimiter_mutualExclusion (hosts : List String) (s : PoolState)
    (hr : PoolReachable (initPool hosts) s) :
    (∀ (i j : Nat) (pi pj : ProbeProc), s.probes[i]? = some pi →
      s.probes[j]? = some pj → pi.phase = .probing → pj.phase = .probing →
      pi.host = pj.host → i = j) ∧
    (∀ (i : Nat) (pi : ProbeProc), s.probes[i]? = some pi →
      pi.phase = .probing → pi.host ∈ s.limiter) ∧
    (∀ (i : Nat) (pi : ProbeProc), s.probes[i]? = some pi →
      pi.phase = .skipped → i ∉ s.written) ∧
    s.written.Nodup := by
  have hinv : PoolInv s := by
    induction hr with
    | refl => exact poolInv_init hosts
    | step _ hstep ih => exact poolInv_step ih hstep
  obtain ⟨inv1, inv2, inv3, inv4⟩ := hinv
  refine ⟨inv2, inv1, ?_, inv4⟩
  intro i pi hpi hsk hmem
  obtain ⟨pj, hpj, hdone⟩ := inv3 i hmem
  rw [hpi] at hpj
  cases hpj
  rw [hsk] at hdone
  cases hdone

/-- A two-probe, one-host demonstration state: the first probe acquired the
host and is probing, the second found the host taken and was skipped. -/
def poolDemoState : PoolState :=
  ⟨["h1"], [⟨"h1", .probing⟩, ⟨"h1", .skipped⟩], []⟩

/-- Witness for `hostLimiter_mutualExclusion` on a concrete two-step trace:
start probe 0, then probe 1 fails to acquire and is skipped. -/
theorem hostLimiter_mutualExclusion_witness :
    "h1" ∈ poolDemoState.limiter ∧ (1 : Nat) ∉ poolDemoState.written := by
  have hstep1 : PoolStep (initPool ["h1", "h1"])
      ⟨["h1"], [⟨"h1", .probing⟩, ⟨"h1", .queued⟩], []⟩ := by
    have h := PoolStep.start (initPool ["h1", "h1"]) 0 ⟨"h1", .queued⟩ rfl rfl
      (by decide)
    simpa [Acquire, initPool] using h
  have hstep2 : PoolStep ⟨["h1"], [⟨"h1", .probing⟩, ⟨"h1", .queued⟩], []⟩
      poolDemoState := by
    have h := PoolStep.skip (⟨["h1"], [⟨"h1", .probing⟩, ⟨"h1", .queued⟩], []⟩ :
      PoolState) 1 ⟨"h1", .queued⟩ rfl rfl (by decide)
    simpa [poolDemoState] using h
  have hr : PoolReachable (initPool ["h1", "h1"]) poolDemoState :=
    .step (.step .refl hstep1) hstep2
  have H := hostLimiter_mutualExclusion ["h1", "h1"] poolDemoState hr
  exact ⟨H.2.1 0 ⟨"h1", .probing⟩ rfl rfl, H.2.2.1 1 ⟨"h1", .skipped⟩ rfl rfl⟩

end Linkwatch

namespace Linkwatch

/-! ## URL canonicalizer (`internal/urlutil/canonical.go`)

`Canonicalize` is built on Go's `net/url`.  The parts it exercises —
`url.Parse`, `URL.Hostname` (via `splitHostPort`), `URL.String` — are
modelled below over character lists, faithfully to the Go sources with these
documented domain restrictions: inputs containing `%` (escape sequences), a
userinfo `@` in the authority, or characters outside the sets
`hostCharOK` / `pathCharOK` (each a subset of what Go leaves unescaped, so
that `escape` is the identity and `RawPath` stays empty) are rejected by the
model's parser rather than parsed.  On every string the model accepts, it
agrees with `net/url`. -/

def lowerChar (c : Char) : Char :=
  if 'A' ≤ c ∧ c ≤ 'Z' then Char.ofNat (c.toNat + 32) else c

/-- `strings.Cut(s, c)`: `(before, after, found)` splitting at the first
occurrence. -/
def cutChar (c : Char) (s : List Char) : List Char × List Char × Bool :=
  match s with
  | [] => ([], [], false)
  | x :: xs =>
      if x = c then ([], xs, true)
      else
        let r := cutChar c xs
        (x :: r.1, r.2.1, r.2.2)

/-- Split at the *last* occurrence of `c`: `some (before, after)`, or `none`
when `c` does not occur (`strings.LastIndexByte`). -/
def lastCharSplit (c : Char) (s : List Char) : Option (List Char × List Char) :=
  let r := cutChar c s.reverse
  if r.2.2 then some (r.2.1.reverse, r.1.reverse) else none

/-- `net/url.validOptionalPort`: empty, or `':'` followed by zero or more
digits. -/
def validOptionalPort : List Char → Bool
  | [] => true
  | c :: ds => if c = ':' then ds.all (fun x => x.isDigit) else false

/-- Characters the model admits in a host.  A subset of what Go's
`encodeHost` mode leaves unescaped (letters, digits, `-._~`, sub-delims,
`:[]`). -/
def hostCharOK (c : Char) : Bool :=
  c.isAlpha || c.isDigit ||
    c ∈ ['-', '.', '_', '~', '!', '$', '&', '(', ')', '*', '+', ',', ';', '=',
      ':', '[', ']']

/-- Characters the model admits in a path.  A subset of what Go's
`encodePath` mode leaves unescaped, so serialization writes the path
verbatim. -/
def pathCharOK (c : Char) : Bool :=
  c.isAlpha || c.isDigit ||
    c ∈ ['-', '.', '_', '~', '$', '&', '+', ',', '/', ':', ';', '=', '@']

/-- `strings.HasSuffix`. -/
def listEndsWith (s suf : List Char) : Bool :=
  if suf.length ≤ s.length then decide (s.drop (s.length - suf.length) = suf)
  else false

def strEndsWith (s suf : String) : Bool := listEndsWith s.data suf.data

/-- The host half of `net/url.splitHostPort` (what `URL.Hostname` returns):
strip a valid optional port after the last `':'`, then strip one enclosing
`[` `]` pair. -/
def splitHostPortHost (hp : List Char) : List Char :=
  let host :=
    match lastCharSplit ':' hp with
    | some (before, after) =>
        if validOptionalPort (':' :: after) then before else hp
    | none => hp
  if host.head? = some '[' ∧ host.getLast? = some ']' then
    (host.drop 1).dropLast
  else host

/-- `URL.Hostname()`. -/
def goHostname (h : String) : String := String.mk (splitHostPortHost h.data)

/-- `net/url.getScheme`: scan for the scheme terminator `':'`; a scheme must
start with a letter and continue with letters, digits, `+`, `-`, `.`.  Any
other character before a `':'` means the whole input is scheme-less; a
leading `':'` is an error. -/
def getSchemeAux (acc : List Char) : List Char → Option (List Char × List Char)
  | [] => some ([], acc.reverse)
  | c :: rest =>
      if c.isAlpha then getSchemeAux (c :: acc) rest
      else if c.isDigit || c = '+' || c = '-' || c = '.' then
        if acc.isEmpty then some ([], c :: rest)
        else getSchemeAux (c :: acc) rest
      else if c = ':' then
        if acc.isEmpty then none
        else some (acc.reverse, rest)
      else some ([], acc.reverse ++ c :: rest)

def getScheme (s : List Char) : Option (List Char × List Char) :=
  getSchemeAux [] s

/-- `net/url.parseHost` validity on the model's character set: a bracketed
host needs a closing `]` followed by a valid optional port; otherwise a
trailing `:...` after the last colon must be a valid optional port. -/
def parseHostValid (h : List Char) : Bool :=
  (if h.head? = some '[' then
     (match lastCharSplit ']' h with
      | none => false
      | some p => validOptionalPort p.2)
   else
     (match lastCharSplit ':' h with
      | none => true
      | some p => validOptionalPort (':' :: p.2)))
  && h.all hostCharOK

/-- The parts of Go's `url.URL` that `Canonicalize` reads or writes.
`opq` models `URL.Opaque`. -/
structure GoURL where
  scheme : String
  opq : String
  host : String
  path : String
  rawQuery : String
  forceQuery : Bool
  fragment : String
  omitHost : Bool
deriving DecidableEq, Repr

/-- The query split of `net/url.parse`: a lone trailing `?` (no other `?`)
sets `ForceQuery` with an empty `RawQuery`; otherwise cut at the first `?`.
Returns `(rest, rawQuery, forceQuery)`. -/
def splitQuery (rest0 : List Char) : List Char × List Char × Bool :=
  if listEndsWith rest0 ['?'] ∧ '?' ∉ rest0.dropLast then
    (rest0.dropLast, [], true)
  else
    let cq := cutChar '?' rest0
    (cq.1, cq.2.1, false)

/-- The authority/opaque/path dispatch of `net/url.parse` (after scheme and
query handling), with `viaRequest = false`: a rest not starting `/` is
opaque when a scheme is present, an error when its first segment contains a
colon, and a rootless path otherwise; `//...` up to the next `/` is the
authority (the model rejects userinfo `@`); `scheme:/path` sets `OmitHost`. -/
def parseRest (scheme fragment rawQuery : List Char) (forceQuery : Bool)
    (rest1 : List Char) : Option GoURL :=
  if rest1.head? ≠ some '/' then
    if scheme ≠ [] then
      some ⟨String.mk scheme, String.mk rest1, "", "",
        String.mk rawQuery, forceQuery, String.mk fragment, false⟩
    else if ':' ∈ (cutChar '/' rest1).1 then none
    else if rest1.all pathCharOK then
      some ⟨"", "", "", String.mk rest1, String.mk rawQuery, forceQuery,
        String.mk fragment, false⟩
    else none
  else
    let hasTwoSlashes := rest1.take 2 = ['/', '/']
    let hasThreeSlashes := rest1.take 3 = ['/', '/', '/']
    if (scheme ≠ [] ∨ ¬hasThreeSlashes) ∧ hasTwoSlashes then
      let afterSlashes := rest1.drop 2
      let cs := cutChar '/' afterSlashes
      let authority := cs.1
      let rest2 := if cs.2.2 then '/' :: cs.2.1 else []
      if '@' ∈ authority then none
      else if parseHostValid authority then
        if rest2.all pathCharOK then
          some ⟨String.mk scheme, "", String.mk authority,
            String.mk rest2, String.mk rawQuery, forceQuery,
            String.mk fragment, false⟩
        else none
      else none
    else
      let omitH := scheme ≠ [] ∧ rest1.head? = some '/'
      if rest1.all pathCharOK then
        some ⟨String.mk scheme, "", "", String.mk rest1,
          String.mk rawQuery, forceQuery, String.mk fragment, omitH⟩
      else none

/-- `url.Parse` (with `viaRequest = false`), restricted as documented above:
fragment is cut first at the first `#`; the scheme is scanned and lowercased;
then query and authority/opaque/path are handled by `splitQuery` and
`parseRest`. -/
def parseURL (raw : String) : Option GoURL :=
  let chars := raw.data
  if chars.any (fun c => c = '%') then none
  else
    let cf := cutChar '#' chars
    match getScheme cf.1 with
    | none => none
    | some (scheme0, rest0) =>
        let q := splitQuery rest0
        parseRest (scheme0.map lowerChar) cf.2.1 q.2.1 q.2.2 q.1

/-- `url.URL.String()` on the model's domain (no userinfo; host and path
need no escaping, so `escape` and `EscapedPath` are the identity). -/
def urlString (u : GoURL) : String :=
  let schemePart := if u.scheme ≠ "" then u.scheme ++ ":" else ""
  let mainPart :=
    if u.opq ≠ "" then u.opq
    else
      let auth :=
        if u.scheme ≠ "" ∨ u.host ≠ "" then
          if u.omitHost ∧ u.host = "" then ""
          else (if u.host ≠ "" ∨ u.path ≠ "" then "//" else "") ++ u.host
        else ""
      let pathSep :=
        if u.path ≠ "" ∧ u.path.data.head? ≠ some '/' ∧ u.host ≠ "" then "/"
        else ""
      let dotSlash :=
        if schemePart = "" ∧ auth = "" ∧ pathSep = "" ∧
            ':' ∈ (cutChar '/' u.path.data).1 then "./"
        else ""
      auth ++ pathSep ++ dotSlash ++ u.path
  let queryPart := if u.forceQuery ∨ u.rawQuery ≠ "" then "?" ++ u.rawQuery else ""
  let fragPart := if u.fragment ≠ "" then "#" ++ u.fragment else ""
  schemePart ++ mainPart ++ queryPart ++ fragPart

/-- The host rules of `Canonicalize` (canonical.go lines 28-38), taking the
already-lowercased scheme: lowercase the host, then replace it by
`Hostname()` when it carries the scheme's default port. -/
def canonicalHostStep (scheme host : String) : String :=
  let h := asciiToLower host
  if (scheme = "http" ∧ strEndsWith h ":80") ∨
      (scheme = "https" ∧ strEndsWith h ":443") then
    goHostname h
  else h

/-- `urlutil.Canonicalize` (canonical.go lines 16-49): parse; require an
absolute http(s) URL; lowercase scheme and host; strip the scheme's default
port via `Hostname()`; drop the fragment; trim one trailing slash from the
path unless the path is exactly `/`; serialize. -/
def Canonicalize (rawURL : String) : Option String :=
  match parseURL rawURL with
  | none => none
  | some u =>
      if u.scheme = "" ∨ (u.scheme ≠ "http" ∧ u.scheme ≠ "https") then none
      else
        let scheme := asciiToLower u.scheme
        let host := canonicalHostStep scheme u.host
        let path :=
          if u.path.length > 1 ∧ strEndsWith u.path "/" then
            String.mk u.path.data.dropLast
          else u.path
        some (urlString
          ⟨scheme, u.opq, host, path, u.rawQuery, u.forceQuery, "", u.omitHost⟩)

end Linkwatch

namespace Linkwatch

/-- C7 counterexample: for an IPv6 literal host with the default port, the
canonicalizer does not strip *exactly* the port.  `Hostname()` also removes
the enclosing brackets, so `http://[::1]:80/path` canonicalizes to
`http://::1/path` instead of `http://[::1]/path`. -/
theorem Canonicalize_ipv6_bracketLoss :
    Canonicalize "http://[::1]:80/path" = some "http://::1/path" ∧
    Canonicalize "http://[::1]:80/path" ≠ some "http://[::1]/path" := by
  constructor
  · decide
  · decide

/-- C8 counterexample: `Canonicalize` is not idempotent.  Rule 6 strips a
*single* trailing slash, so `http://example.com/a//` canonicalizes to
`http://example.com/a/`, which canonicalizes again to `http://example.com/a`:
`canonicalize (canonicalize u) ≠ canonicalize u`. -/
theorem Canonicalize_not_idempotent :
    Canonicalize "http://example.com/a//" = some "http://example.com/a/" ∧
    Canonicalize "http://example.com/a/" = some "http://example.com/a" ∧
    Canonicalize "http://example.com/a/" ≠ some "http://example.com/a/" := by
  refine ⟨by decide, by decide, by decide⟩

end Linkwatch

namespace Linkwatch

/-! Facts about the string-scanning helpers, used to verify `Canonicalize`'s
behaviour on general inputs. -/

theorem cutChar_of_not_mem (c : Char) (s : List Char) (h : c ∉ s) :
    cutChar c s = (s, [], false) := by
  induction s with
  | nil => rfl
  | cons x xs ih =>
      have hx : ¬x = c := fun hEq => h (hEq ▸ List.mem_cons_self x xs)
      have hxs : c ∉ xs := fun hm => h (List.mem_cons_of_mem x hm)
      simp [cutChar, hx, ih hxs]

theorem cutChar_append (c : Char) (xs ys : List Char) (h : c ∉ xs) :
    cutChar c (xs ++ c :: ys) = (xs, ys, true) := by
  induction xs with
  | nil => simp [cutChar]
  | cons x xs ih =>
      have hx : ¬x = c := fun hEq => h (hEq ▸ List.mem_cons_self x xs)
      have hxs : c ∉ xs := fun hm => h (List.mem_cons_of_mem x hm)
      simp [cutChar, hx, ih hxs]

theorem cutChar_mem_fst {a c : Char} {s : List Char}
    (h : a ∈ (cutChar c s).1) : a ∈ s := by
  induction s with
  | nil => simpa [cutChar] using h
  | cons x xs ih =>
      by_cases hx : x = c
      · simp [cutChar, hx] at h
      · simp [cutChar, hx] at h
        rcases h with h | h
        · exact h ▸ List.mem_cons_self x xs
        · exact List.mem_cons_of_mem x (ih h)

theorem cutChar_mem_snd {a c : Char} {s : List Char}
    (h : a ∈ (cutChar c s).2.1) : a ∈ s := by
  induction s with
  | nil => simpa [cutChar] using h
  | cons x xs ih =>
      by_cases hx : x = c
      · simp [cutChar, hx] at h
        exact hx ▸ List.mem_cons_of_mem x h
      · simp [cutChar, hx] at h
        exact List.mem_cons_of_mem x (ih h)

theorem cutChar_not_mem_fst (c : Char) (s : List Char) : c ∉ (cutChar c s).1 := by
  induction s with
  | nil => simp [cutChar]
  | cons x xs ih =>
      by_cases hx : x = c
      · simp [cutChar, hx]
      · simp only [cutChar, if_neg hx]
        intro hmem
        rcases List.mem_cons.mp hmem with hEq | hmem'
        · exact hx hEq.symm
        · exact ih hmem' 

theorem listEndsWith_append (xs ys : List Char) :
    listEndsWith (xs ++ ys) ys = true := by
  simp [listEndsWith, List.length_append]

theorem listEndsWith_iff (s suf : List Char) :
    listEndsWith s suf = true ↔ ∃ pre, s = pre ++ suf := by
  constructor
  · intro h
    simp only [listEndsWith] at h
    split at h
    · refine ⟨s.take (s.length - suf.length), ?_⟩
      conv_lhs => rw [← List.take_append_drop (s.length - suf.length) s]
      rw [of_decide_eq_true h]
    · cases h
  · rintro ⟨pre, rfl⟩
    exact listEndsWith_append pre suf

theorem listEndsWith_singleton (s : List Char) (c : Char) :
    listEndsWith s [c] = true ↔ s.getLast? = some c := by
  rw [listEndsWith_iff]
  constructor
  · rintro ⟨pre, rfl⟩
    simp
  · intro h
    rcases s.eq_nil_or_concat with rfl | ⟨pre, a, rfl⟩
    · cases h
    · simp at h
      exact ⟨pre, by rw [h, List.concat_eq_append]⟩

theorem lastCharSplit_append (c : Char) (pre suf : List Char) (h : c ∉ suf) :
    lastCharSplit c (pre ++ c :: suf) = some (pre, suf) := by
  have hrev : c ∉ suf.reverse := fun hm => h (List.mem_reverse.mp hm)
  simp [lastCharSplit, List.reverse_append, cutChar_append c suf.reverse pre.reverse hrev]

theorem lastCharSplit_of_not_mem (c : Char) (s : List Char) (h : c ∉ s) :
    lastCharSplit c s = none := by
  have hrev : c ∉ s.reverse := fun hm => h (List.mem_reverse.mp hm)
  simp [lastCharSplit, cutChar_of_not_mem c s.reverse hrev]

end Linkwatch

namespace Linkwatch

theorem getScheme_http (rest : List Char) :
    getScheme ('h' :: 't' :: 't' :: 'p' :: ':' :: rest) =
      some (['h', 't', 't', 'p'], rest) := by
  rfl

theorem getScheme_https (rest : List Char) :
    getScheme ('h' :: 't' :: 't' :: 'p' :: 's' :: ':' :: rest) =
      some (['h', 't', 't', 'p', 's'], rest) := by
  rfl

theorem getSchemeAux_rest_sub (s : List Char) :
    ∀ (acc sch rest : List Char), getSchemeAux acc s = some (sch, rest) →
      ∀ a ∈ rest, a ∈ acc.reverse ++ s := by
  induction s with
  | nil =>
      intro acc sch rest h a ha
      simp [getSchemeAux] at h
      rw [← h.2] at ha
      simpa using ha
  | cons c cs ih =>
      intro acc sch rest h a ha
      simp only [getSchemeAux] at h
      by_cases h1 : c.isAlpha
      · rw [if_pos h1] at h
        have := ih (c :: acc) sch rest h a ha
        simpa using this
      · rw [if_neg h1] at h
        by_cases h2 : c.isDigit || c = '+' || c = '-' || c = '.'
        · rw [if_pos (by simpa using h2)] at h
          by_cases h3 : acc.isEmpty
          · rw [if_pos h3] at h
            have hpr := Prod.mk.inj (Option.some.inj h)
            rw [← hpr.2] at ha
            have hacc : acc = [] := by simpa [List.isEmpty_iff] using h3
            simpa [hacc] using ha
          · rw [if_neg h3] at h
            have := ih (c :: acc) sch rest h a ha
            simpa using this
        · rw [if_neg (by simpa using h2)] at h
          by_cases h4 : c = ':'
          · rw [if_pos h4] at h
            by_cases h5 : acc.isEmpty
            · rw [if_pos h5] at h
              cases h
            · rw [if_neg h5] at h
              have hpr := Prod.mk.inj (Option.some.inj h)
              rw [← hpr.2] at ha
              subst h4
              exact List.mem_append_right _ (List.mem_cons_of_mem _ ha)
          · rw [if_neg h4] at h
            have hpr := Prod.mk.inj (Option.some.inj h)
            rw [← hpr.2] at ha
            exact ha

theorem getScheme_rest_sub {s sch rest : List Char}
    (h : getScheme s = some (sch, rest)) : ∀ a ∈ rest, a ∈ s := by
  intro a ha
  simpa using getSchemeAux_rest_sub s [] sch rest h a ha

theorem splitQuery_of_not_mem (s : List Char) (h : '?' ∉ s) :
    splitQuery s = (s, [], false) := by
  have hend : listEndsWith s ['?'] ≠ true := by
    intro hcon
    obtain ⟨pre, rfl⟩ := (listEndsWith_iff s ['?']).mp hcon
    exact h (List.mem_append_right pre (List.mem_singleton.mpr rfl))
  simp only [splitQuery]
  rw [if_neg (by simp [hend]), cutChar_of_not_mem _ _ h]

theorem splitQuery_force (s : List Char) (h : '?' ∉ s) :
    splitQuery (s ++ ['?']) = (s, [], true) := by
  simp only [splitQuery]
  rw [if_pos]
  · simp
  · constructor
    · exact listEndsWith_append s ['?']
    · simpa [List.dropLast_concat] using h

theorem splitQuery_query (s q : List Char) (hs : '?' ∉ s) (hq : q ≠ []) :
    splitQuery (s ++ '?' :: q) = (s, q, false) := by
  have hcut : cutChar '?' (s ++ '?' :: q) = (s, q, true) := cutChar_append '?' s q hs
  by_cases hlast : q.getLast? = some '?'
  · obtain ⟨q', a, rfl⟩ :=
      (q.eq_nil_or_concat).resolve_left hq
    simp at hlast
    subst hlast
    simp only [List.concat_eq_append] at hcut ⊢
    simp only [splitQuery]
    rw [if_neg, hcut]
    intro hcon
    apply hcon.2
    have hdl : (s ++ '?' :: (q' ++ ['?'])).dropLast = s ++ '?' :: q' := by
      rw [← List.cons_append, ← List.append_assoc, List.dropLast_concat]
    rw [hdl]
    exact List.mem_append_right s (List.mem_cons_self _ _)
  · simp only [splitQuery]
    rw [if_neg, hcut]
    intro hcon
    apply hlast
    have h1 := (listEndsWith_singleton _ _).mp hcon.1
    rw [List.getLast?_append_cons] at h1
    obtain ⟨b, q', rfl⟩ : ∃ b q', q = b :: q' := by
      cases q with
      | nil => exact absurd rfl hq
      | cons b q' => exact ⟨b, q', rfl⟩
    rw [List.getLast?_cons_cons] at h1
    exact h1

end Linkwatch

namespace Linkwatch

/-! Facts about `lowerChar` and the character classes. -/

theorem char_toNat_ofNat {n : Nat} (h : n < 55296) : (Char.ofNat n).toNat = n := by
  unfold Char.ofNat
  rw [dif_pos (Or.inl h)]
  simp only [Char.ofNatAux, Char.toNat]
  norm_num [UInt32.toNat]

theorem char_eq_of_toNat_eq {c d : Char} (h : c.toNat = d.toNat) : c = d := by
  simpa [Char.ext_iff, UInt32.ext_iff] using h

theorem char_le_iff_toNat {c d : Char} : c ≤ d ↔ c.toNat ≤ d.toNat := Iff.rfl

theorem isAlpha_iff_toNat (c : Char) :
    c.isAlpha = true ↔
      (65 ≤ c.toNat ∧ c.toNat ≤ 90) ∨ (97 ≤ c.toNat ∧ c.toNat ≤ 122) := by
  simp [Char.isAlpha, Char.isUpper, Char.isLower, Char.le_def]
  exact Iff.rfl

theorem isDigit_iff_toNat (c : Char) :
    c.isDigit = true ↔ (48 ≤ c.toNat ∧ c.toNat ≤ 57) := by
  simp [Char.isDigit, Char.le_def]
  exact Iff.rfl

theorem lowerChar_toNat (c : Char) :
    (lowerChar c).toNat =
      if 65 ≤ c.toNat ∧ c.toNat ≤ 90 then c.toNat + 32 else c.toNat := by
  unfold lowerChar
  have hA : ('A' : Char).toNat = 65 := rfl
  have hZ : ('Z' : Char).toNat = 90 := rfl
  by_cases h : 'A' ≤ c ∧ c ≤ 'Z'
  · have h1 : 65 ≤ c.toNat := hA ▸ char_le_iff_toNat.mp h.1
    have h2 : c.toNat ≤ 90 := hZ ▸ char_le_iff_toNat.mp h.2
    rw [if_pos h, if_pos ⟨h1, h2⟩]
    exact char_toNat_ofNat (by omega)
  · have hn : ¬(65 ≤ c.toNat ∧ c.toNat ≤ 90) := by
      intro hcon
      exact h ⟨char_le_iff_toNat.mpr (hA ▸ hcon.1), char_le_iff_toNat.mpr (hZ ▸ hcon.2)⟩
    rw [if_neg h, if_neg hn]

theorem lowerChar_fixed (c : Char) (h : ¬('A' ≤ c ∧ c ≤ 'Z')) : lowerChar c = c := by
  simp [lowerChar, h]

theorem lowerChar_fixed_toNat (c : Char) (h : ¬(65 ≤ c.toNat ∧ c.toNat ≤ 90)) :
    lowerChar c = c := by
  apply lowerChar_fixed
  intro hcon
  exact h ⟨char_le_iff_toNat.mp hcon.1, char_le_iff_toNat.mp hcon.2⟩

theorem not_upper_lowerChar (c : Char) : ¬('A' ≤ lowerChar c ∧ lowerChar c ≤ 'Z') := by
  intro hcon
  have h1 : 65 ≤ (lowerChar c).toNat := char_le_iff_toNat.mp hcon.1
  have h2 : (lowerChar c).toNat ≤ 90 := char_le_iff_toNat.mp hcon.2
  rw [lowerChar_toNat] at h1 h2
  by_cases hc : 65 ≤ c.toNat ∧ c.toNat ≤ 90
  · rw [if_pos hc] at h1 h2
    omega
  · rw [if_neg hc] at h1 h2
    exact hc ⟨h1, h2⟩

theorem lowerChar_lowerChar (c : Char) : lowerChar (lowerChar c) = lowerChar c :=
  lowerChar_fixed _ (not_upper_lowerChar c)

/-- For a character that is neither an upper-case letter nor the lower-case
image of one, `lowerChar c = d` exactly when `c = d`. -/
theorem lowerChar_eq_iff (c d : Char) (hd1 : ¬(65 ≤ d.toNat ∧ d.toNat ≤ 90))
    (hd2 : ¬(97 ≤ d.toNat ∧ d.toNat ≤ 122)) : lowerChar c = d ↔ c = d := by
  constructor
  · intro h
    have ht : (lowerChar c).toNat = d.toNat := by rw [h]
    rw [lowerChar_toNat] at ht
    by_cases hc : 65 ≤ c.toNat ∧ c.toNat ≤ 90
    · rw [if_pos hc] at ht
      exact absurd ⟨by omega, by omega⟩ hd2
    · rw [if_neg hc] at ht
      exact char_eq_of_toNat_eq ht
  · intro hEq
    subst hEq
    exact lowerChar_fixed_toNat c hd1

theorem lowerChar_isDigit (c : Char) (h : c.isDigit = true) : lowerChar c = c := by
  rw [isDigit_iff_toNat] at h
  exact lowerChar_fixed_toNat c (by omega)

theorem hostCharOK_lowerChar {c : Char} (h : hostCharOK c = true) :
    hostCharOK (lowerChar c) = true := by
  simp only [hostCharOK, Bool.or_eq_true] at h ⊢
  rcases h with (ha | hd) | hs
  · left
    left
    rw [isAlpha_iff_toNat] at ha ⊢
    rw [lowerChar_toNat]
    split_ifs <;> omega
  · left
    right
    rw [lowerChar_isDigit c hd]
    exact hd
  · right
    rw [decide_eq_true_eq] at hs ⊢
    fin_cases hs <;> decide

end Linkwatch

namespace Linkwatch

theorem hostCharOK_ne {c : Char} (h : hostCharOK c = true) :
    c ≠ '%' ∧ c ≠ '#' ∧ c ≠ '?' ∧ c ≠ '/' ∧ c ≠ '@' := by
  refine ⟨?_, ?_, ?_, ?_, ?_⟩ <;> rintro rfl <;> revert h <;> decide

theorem pathCharOK_ne {c : Char} (h : pathCharOK c = true) :
    c ≠ '%' ∧ c ≠ '#' ∧ c ≠ '?' := by
  refine ⟨?_, ?_, ?_⟩ <;> rintro rfl <;> revert h <;> decide

theorem host_all_not_mem {host : List Char} (hall : host.all hostCharOK = true) :
    '%' ∉ host ∧ '#' ∉ host ∧ '?' ∉ host ∧ '/' ∉ host ∧ '@' ∉ host := by
  rw [List.all_eq_true] at hall
  refine ⟨fun hm => ?_, fun hm => ?_, fun hm => ?_, fun hm => ?_, fun hm => ?_⟩
  · exact (hostCharOK_ne (hall _ hm)).1 rfl
  · exact (hostCharOK_ne (hall _ hm)).2.1 rfl
  · exact (hostCharOK_ne (hall _ hm)).2.2.1 rfl
  · exact (hostCharOK_ne (hall _ hm)).2.2.2.1 rfl
  · exact (hostCharOK_ne (hall _ hm)).2.2.2.2 rfl

theorem path_all_not_mem {path : List Char} (hall : path.all pathCharOK = true) :
    '%' ∉ path ∧ '#' ∉ path ∧ '?' ∉ path := by
  rw [List.all_eq_true] at hall
  refine ⟨fun hm => ?_, fun hm => ?_, fun hm => ?_⟩
  · exact (pathCharOK_ne (hall _ hm)).1 rfl
  · exact (pathCharOK_ne (hall _ hm)).2.1 rfl
  · exact (pathCharOK_ne (hall _ hm)).2.2 rfl

theorem parseRest_authority (scheme frag rq : List Char) (fq : Bool)
    (host path : List Char) (hsch : scheme ≠ [])
    (hhostOK : parseHostValid host = true) (hslash : '/' ∉ host)
    (hat : '@' ∉ host) (hpath : path = [] ∨ path.head? = some '/')
    (hpathOK : path.all pathCharOK = true) :
    parseRest scheme frag rq fq ('/' :: '/' :: (host ++ path)) =
      some ⟨String.mk scheme, "", String.mk host, String.mk path,
        String.mk rq, fq, String.mk frag, false⟩ := by
  simp only [parseRest]
  rw [if_neg (by simp)]
  rw [if_pos ⟨Or.inl hsch, rfl⟩]
  have hdrop : ('/' :: '/' :: (host ++ path)).drop 2 = host ++ path := rfl
  rcases hpath with rfl | hhead
  · rw [hdrop]
    rw [List.append_nil, cutChar_of_not_mem '/' host hslash]
    simp [hat, hhostOK]
  · cases path with
    | nil => cases hhead
    | cons p0 pd =>
        have hp0 : p0 = '/' := by
          simpa using hhead
        subst hp0
        rw [hdrop, cutChar_append '/' host pd hslash]
        simp [hat, hhostOK, hpathOK]

end Linkwatch

namespace Linkwatch

/-- Shape of the `GoURL` records produced by `Canonicalize` on the inputs
covered by the amended idempotence claim. -/
def CanonicalForm (u : GoURL) : Prop :=
  (u.scheme = "http" ∨ u.scheme = "https") ∧
  u.opq = "" ∧ u.omitHost = false ∧ u.fragment = "" ∧
  u.host ≠ "" ∧ u.host.data.all hostCharOK = true ∧
  parseHostValid u.host.data = true ∧
  (u.path = "" ∨ u.path.data.head? = some '/') ∧
  u.path.data.all pathCharOK = true ∧
  (u.forceQuery = true → u.rawQuery = "") ∧
  '#' ∉ u.rawQuery.data ∧ '%' ∉ u.rawQuery.data

theorem string_ne_iff_data {s : String} : s ≠ "" ↔ s.data ≠ [] := by
  constructor
  · intro h hcon
    exact h (by cases s; simp_all)
  · intro h hcon
    exact h (by rw [hcon])

theorem urlString_authority_data (u : GoURL) (hopq : u.opq = "")
    (homit : u.omitHost = false) (hfrag : u.fragment = "")
    (hhost : u.host ≠ "") (hsch : u.scheme ≠ "")
    (hpath : u.path = "" ∨ u.path.data.head? = some '/') :
    (urlString u).data =
      u.scheme.data ++ ':' ::
        (('/' :: '/' :: (u.host.data ++ u.path.data)) ++
          (if u.forceQuery ∨ u.rawQuery ≠ "" then '?' :: u.rawQuery.data else [])) := by
  have hsep : ¬(u.path ≠ "" ∧ u.path.data.head? ≠ some '/' ∧ u.host ≠ "") := by
    rcases hpath with h | h
    · intro hcon
      exact hcon.1 h
    · intro hcon
      exact hcon.2.1 h
  simp only [urlString, hopq, homit, hfrag]
  rw [if_pos hsch, if_neg (by simp), if_pos (Or.inl hsch),
    if_neg (by simp [homit]) ]
  rw [if_pos (Or.inl hhost), if_neg hsep]
  rw [if_neg (by
    intro hcon
    have hd := congrArg String.data hcon.1
    simp [String.data_append] at hd)]
  by_cases hq : u.forceQuery ∨ u.rawQuery ≠ ""
  · rw [if_pos hq, if_pos hq]
    simp [String.data_append]
  · rw [if_neg hq, if_neg hq]
    simp [String.data_append]

end Linkwatch

namespace Linkwatch

theorem parseURL_roundtrip (u : GoURL) (hCF : CanonicalForm u) :
    parseURL (urlString u) = some u := by
  obtain ⟨hs, hopq, homit, hfrag, hhost, hallH, hvalid, hpathShape, hallP,
    hfq, hqh, hqp⟩ := hCF
  have hsch : u.scheme ≠ "" := by
    rcases hs with h | h <;> rw [h] <;> simp
  have hser := urlString_authority_data u hopq homit hfrag hhost hsch hpathShape
  obtain ⟨hH1, hH2, hH3, hH4, hH5⟩ := host_all_not_mem hallH
  obtain ⟨hP1, hP2, hP3⟩ := path_all_not_mem hallP
  have hsfacts : (∀ r, getScheme (u.scheme.data ++ ':' :: r) =
        some (u.scheme.data, r)) ∧
      u.scheme.data.map lowerChar = u.scheme.data ∧ '%' ∉ u.scheme.data ∧
      '#' ∉ u.scheme.data ∧ u.scheme.data ≠ [] := by
    rcases hs with h | h <;> rw [h]
    · exact ⟨fun r => getScheme_http r, by decide, by decide, by decide, by decide⟩
    · exact ⟨fun r => getScheme_https r, by decide, by decide, by decide, by decide⟩
  have hPdata : u.path.data = [] ∨ u.path.data.head? = some '/' := by
    rcases hpathShape with h | h
    · exact Or.inl (by rw [h])
    · exact Or.inr h
  -- the serialized character list and its occurrence facts
  have hqChars : ∀ a, a ∈ (if u.forceQuery ∨ u.rawQuery ≠ "" then
      '?' :: u.rawQuery.data else []) → a = '?' ∨ a ∈ u.rawQuery.data := by
    intro a ha
    split at ha
    · rcases List.mem_cons.mp ha with h | h
      · exact Or.inl h
      · exact Or.inr h
    · cases ha
  have hnoPct : '%' ∉ (urlString u).data := by
    rw [hser]
    intro hm
    rcases List.mem_append.mp hm with hm | hm
    · exact hsfacts.2.2.1 hm
    · rcases List.mem_cons.mp hm with hm | hm
      · cases hm
      · rcases List.mem_append.mp hm with hm | hm
        · rcases List.mem_cons.mp hm with hm | hm
          · cases hm
          · rcases List.mem_cons.mp hm with hm | hm
            · cases hm
            · rcases List.mem_append.mp hm with hm | hm
              · exact hH1 hm
              · exact hP1 hm
        · rcases hqChars _ hm with hm | hm
          · cases hm
          · exact hqp hm
  have hnoHash : '#' ∉ (urlString u).data := by
    rw [hser]
    intro hm
    rcases List.mem_append.mp hm with hm | hm
    · exact hsfacts.2.2.2.1 hm
    · rcases List.mem_cons.mp hm with hm | hm
      · cases hm
      · rcases List.mem_append.mp hm with hm | hm
        · rcases List.mem_cons.mp hm with hm | hm
          · cases hm
          · rcases List.mem_cons.mp hm with hm | hm
            · cases hm
            · rcases List.mem_append.mp hm with hm | hm
              · exact hH2 hm
              · exact hP2 hm
        · rcases hqChars _ hm with hm | hm
          · cases hm
          · exact hqh hm
  have hnoQbase : '?' ∉ '/' :: '/' :: (u.host.data ++ u.path.data) := by
    intro hm
    rcases List.mem_cons.mp hm with hm | hm
    · cases hm
    · rcases List.mem_cons.mp hm with hm | hm
      · cases hm
      · rcases List.mem_append.mp hm with hm | hm
        · exact hH3 hm
        · exact hP3 hm
  have hanyPct : ((urlString u).data.any (fun c => c = '%')) ≠ true := by
    intro hcon
    rw [List.any_eq_true] at hcon
    obtain ⟨x, hx, hx'⟩ := hcon
    rw [decide_eq_true_eq] at hx'
    exact hnoPct (hx' ▸ hx)
  simp only [parseURL]
  rw [if_neg hanyPct, cutChar_of_not_mem '#' _ hnoHash]
  simp only
  rw [hser, hsfacts.1]
  simp only [hsfacts.2.1]
  by_cases hq : u.forceQuery = true ∨ u.rawQuery ≠ ""
  · rcases hq with hq | hq
    · have hq0 : u.rawQuery = "" := hfq hq
      have hqif : (if u.forceQuery ∨ u.rawQuery ≠ "" then
          '?' :: u.rawQuery.data else []) = ['?'] := by
        rw [if_pos (Or.inl hq), hq0]
      rw [hqif, splitQuery_force _ hnoQbase]
      simp only
      rw [parseRest_authority _ _ _ _ _ _ (string_ne_iff_data.mp hsch) hvalid
        hH4 hH5 hPdata hallP]
      cases u
      simp_all
    · have hqif : (if u.forceQuery ∨ u.rawQuery ≠ "" then
          '?' :: u.rawQuery.data else []) = '?' :: u.rawQuery.data := by
        rw [if_pos (Or.inr hq)]
      rw [hqif, splitQuery_query _ _ hnoQbase (string_ne_iff_data.mp hq)]
      simp only
      rw [parseRest_authority _ _ _ _ _ _ (string_ne_iff_data.mp hsch) hvalid
        hH4 hH5 hPdata hallP]
      cases u
      simp_all
  · have hq1 : ¬(u.forceQuery ∨ u.rawQuery ≠ "") := by
      intro hcon
      rcases hcon with hcon | hcon
      · exact hq (Or.inl hcon)
      · exact hq (Or.inr hcon)
    have hqif : (if u.forceQuery ∨ u.rawQuery ≠ "" then
        '?' :: u.rawQuery.data else []) = [] := if_neg hq1
    rw [hqif, List.append_nil, splitQuery_of_not_mem _ hnoQbase]
    simp only
    rw [parseRest_authority _ _ _ _ _ _ (string_ne_iff_data.mp hsch) hvalid
      hH4 hH5 hPdata hallP]
    have hfq0 : u.forceQuery = false := by
      rcases hq2 : u.forceQuery with _ | _
      · rfl
      · exact absurd (Or.inl hq2) hq
    have hq0 : u.rawQuery = "" := by
      by_contra hcon
      exact hq (Or.inr hcon)
    cases u
    simp_all

end Linkwatch

namespace Linkwatch

theorem splitQuery_force_empty (s : List Char)
    (h : (splitQuery s).2.2 = true) : (splitQuery s).2.1 = [] := by
  simp only [splitQuery] at h ⊢
  split at h
  · split
    · rfl
    · simp_all
  · simp at h

theorem splitQuery_mem_fst {a : Char} {s : List Char}
    (h : a ∈ (splitQuery s).1) : a ∈ s := by
  simp only [splitQuery] at h
  split at h
  · exact List.dropLast_subset s h
  · exact cutChar_mem_fst h

theorem splitQuery_mem_snd {a : Char} {s : List Char}
    (h : a ∈ (splitQuery s).2.1) : a ∈ s := by
  simp only [splitQuery] at h
  split at h
  · cases h
  · exact cutChar_mem_snd h

theorem parseRest_inv (scheme frag rq : List Char) (fq : Bool)
    (rest1 : List Char) (u : GoURL)
    (hp : parseRest scheme frag rq fq rest1 = some u) (hhost : u.host ≠ "") :
    u.opq = "" ∧ u.omitHost = false ∧
    u.host.data.all hostCharOK = true ∧ parseHostValid u.host.data = true ∧
    (u.path = "" ∨ u.path.data.head? = some '/') ∧
    u.path.data.all pathCharOK = true ∧
    u.rawQuery.data = rq ∧ u.forceQuery = fq := by
  simp only [parseRest] at hp
  split at hp
  · split at hp
    · cases Option.some.inj hp
      exact absurd rfl hhost
    · split at hp
      · cases hp
      · split at hp
        · cases Option.some.inj hp
          exact absurd rfl hhost
        · cases hp
  · split at hp
    · split at hp
      · cases hp
      · split at hp
        · rename_i hvalid
          split at hp
          · split at hp
            · rename_i hall
              cases Option.some.inj hp
              have hOK : ((cutChar '/' (rest1.drop 2)).1).all hostCharOK = true :=
                ((Bool.and_eq_true _ _).mp hvalid).2
              exact ⟨rfl, rfl, hOK, hvalid, Or.inr rfl, hall, rfl, rfl⟩
            · cases hp
          · split at hp
            · rename_i hall
              cases Option.some.inj hp
              have hOK : ((cutChar '/' (rest1.drop 2)).1).all hostCharOK = true :=
                ((Bool.and_eq_true _ _).mp hvalid).2
              exact ⟨rfl, rfl, hOK, hvalid, Or.inl rfl, hall, rfl, rfl⟩
            · cases hp
        · cases hp
    · split at hp
      · cases Option.some.inj hp
        exact absurd rfl hhost
      · cases hp

end Linkwatch

namespace Linkwatch

theorem string_eq_empty_iff {s : String} : s = "" ↔ s.data = [] := by
  constructor
  · intro h
    rw [h]
  · intro h
    cases s
    simp_all

theorem parseURL_inv (raw : String) (u : GoURL) (hp : parseURL raw = some u)
    (hhost : u.host ≠ "") :
    u.opq = "" ∧ u.omitHost = false ∧
    u.host.data.all hostCharOK = true ∧ parseHostValid u.host.data = true ∧
    (u.path = "" ∨ u.path.data.head? = some '/') ∧
    u.path.data.all pathCharOK = true ∧
    (u.forceQuery = true → u.rawQuery = "") ∧
    '#' ∉ u.rawQuery.data ∧ '%' ∉ u.rawQuery.data := by
  simp only [parseURL] at hp
  split at hp
  · cases hp
  · rename_i hpct
    rcases hgs : getScheme (cutChar '#' raw.data).1 with _ | ⟨sch, rest0⟩ <;>
      rw [hgs] at hp <;> simp only at hp
    · cases hp
    · have base := parseRest_inv (sch.map lowerChar)
        (cutChar '#' raw.data).2.1 (splitQuery rest0).2.1 (splitQuery rest0).2.2
        (splitQuery rest0).1 u hp hhost
      obtain ⟨b1, b2, b3, b4, b5, b6, brq, bfq⟩ := base
      refine ⟨b1, b2, b3, b4, b5, b6, ?_, ?_, ?_⟩
      · intro hfq
        have h22 : (splitQuery rest0).2.2 = true := by rw [← bfq]; exact hfq
        have hnil := splitQuery_force_empty rest0 h22
        rw [string_eq_empty_iff, brq, hnil]
      · intro hm
        rw [brq] at hm
        have h1 := splitQuery_mem_snd hm
        have h2 := getScheme_rest_sub hgs _ h1
        exact cutChar_not_mem_fst '#' raw.data h2
      · intro hm
        rw [brq] at hm
        have h1 := splitQuery_mem_snd hm
        have h2 := getScheme_rest_sub hgs _ h1
        have h3 := cutChar_mem_fst h2
        apply hpct
        rw [List.any_eq_true]
        exact ⟨'%', h3, by simp⟩

end Linkwatch

namespace Linkwatch

/-- The record transformation performed by `Canonicalize` between parsing and
serialization (scheme/host lowercasing, default-port stripping, fragment
drop, trailing-slash trim). -/
def canonXform (u : GoURL) : GoURL :=
  ⟨asciiToLower u.scheme, u.opq,
    canonicalHostStep (asciiToLower u.scheme) u.host,
    (if u.path.length > 1 ∧ strEndsWith u.path "/" then
      String.mk u.path.data.dropLast
    else u.path),
    u.rawQuery, u.forceQuery, "", u.omitHost⟩

theorem Canonicalize_eq_some (raw : String) (u : GoURL)
    (hp : parseURL raw = some u)
    (hs : u.scheme = "http" ∨ u.scheme = "https") :
    Canonicalize raw = some (urlString (canonXform u)) := by
  have hguard : ¬(u.scheme = "" ∨ (u.scheme ≠ "http" ∧ u.scheme ≠ "https")) := by
    rcases hs with h | h <;> rw [h] <;> simp
  simp only [Canonicalize, hp, if_neg hguard, canonXform]

end Linkwatch

namespace Linkwatch

theorem cutChar_found (c : Char) (s : List Char) (h : (cutChar c s).2.2 = true) :
    s = (cutChar c s).1 ++ c :: (cutChar c s).2.1 := by
  induction s with
  | nil => cases h
  | cons x xs ih =>
      by_cases hx : x = c
      · simp [cutChar, hx]
      · simp only [cutChar, if_neg hx] at h ⊢
        exact congrArg (x :: ·) (ih h)

theorem listEndsWith_mem {l suf : List Char} (h : listEndsWith l suf = true)
    {a : Char} (ha : a ∈ suf) : a ∈ l := by
  obtain ⟨pre, rfl⟩ := (listEndsWith_iff l suf).mp h
  exact List.mem_append_right pre ha

theorem digit_ne_colon {c : Char} (h : c.isDigit = true) : c ≠ ':' := by
  rintro rfl
  revert h
  decide

theorem validOptionalPort_digits (suf : List Char)
    (h : suf.all Char.isDigit = true) : validOptionalPort (':' :: suf) = true := by
  simp [validOptionalPort, h]

theorem splitHostPortHost_strip (pre suf : List Char) (hpre : ':' ∉ pre)
    (hsuf : suf.all Char.isDigit = true) (hb : pre.head? ≠ some '[') :
    splitHostPortHost (pre ++ ':' :: suf) = pre := by
  have hsufc : ':' ∉ suf := by
    intro hm
    rw [List.all_eq_true] at hsuf
    exact digit_ne_colon (hsuf _ hm) rfl
  simp only [splitHostPortHost, lastCharSplit_append ':' pre suf hsufc]
  rw [if_pos (validOptionalPort_digits suf hsuf)]
  rw [if_neg (fun hcon => hb hcon.1)]

/-- `parseHostValid` for a colon-free, non-bracketed host over the model's
character set. -/
theorem parseHostValid_of_no_colon (l : List Char) (hc : ':' ∉ l)
    (hb : l.head? ≠ some '[') (hall : l.all hostCharOK = true) :
    parseHostValid l = true := by
  simp only [parseHostValid]
  rw [Bool.and_eq_true]
  refine ⟨?_, hall⟩
  split
  · rename_i heq
    exact absurd heq hb
  · rw [lastCharSplit_of_not_mem ':' l hc]

theorem lowerChar_colon_iff (c : Char) : lowerChar c = ':' ↔ c = ':' :=
  lowerChar_eq_iff c ':' (by decide) (by decide)

theorem lowerChar_bracket_iff (c : Char) : lowerChar c = '[' ↔ c = '[' :=
  lowerChar_eq_iff c '[' (by decide) (by decide)

theorem map_lowerChar_colon_not_mem {l : List Char} (h : ':' ∉ l) :
    ':' ∉ l.map lowerChar := by
  intro hm
  obtain ⟨x, hx, hx'⟩ := List.mem_map.mp hm
  exact h (((lowerChar_colon_iff x).mp hx') ▸ hx)

theorem map_lowerChar_head_ne_bracket {l : List Char}
    (h : l.head? ≠ some '[') : (l.map lowerChar).head? ≠ some '[' := by
  cases l with
  | nil => simp
  | cons x xs =>
      simp only [List.map_cons, List.head?_cons] at h ⊢
      intro hcon
      exact h (congrArg some ((lowerChar_bracket_iff x).mp (Option.some.inj hcon)))

theorem all_hostCharOK_map_lowerChar {l : List Char}
    (h : l.all hostCharOK = true) : (l.map lowerChar).all hostCharOK = true := by
  rw [List.all_eq_true] at h ⊢
  intro x hx
  obtain ⟨y, hy, rfl⟩ := List.mem_map.mp hx
  exact hostCharOK_lowerChar (h y hy)

theorem map_lowerChar_digits {l : List Char} (h : l.all Char.isDigit = true) :
    l.map lowerChar = l := by
  rw [List.all_eq_true] at h
  induction l with
  | nil => rfl
  | cons x xs ih =>
      rw [List.map_cons, lowerChar_isDigit x (h x (List.mem_cons_self x xs))]
      rw [ih (fun y hy => h y (List.mem_cons_of_mem x hy))]

theorem cutChar_found_of_mem {c : Char} {s : List Char} (h : c ∈ s) :
    (cutChar c s).2.2 = true := by
  induction s with
  | nil => cases h
  | cons x xs ih =>
      by_cases hx : x = c
      · simp [cutChar, hx]
      · have hm : c ∈ xs := by
          rcases List.mem_cons.mp h with h1 | h1
          · exact absurd h1.symm hx
          · exact h1
        simp [cutChar, hx, ih hm]

theorem parseHostValid_not_bracket (l : List Char) (hb : l.head? ≠ some '[') :
    parseHostValid l =
      ((match lastCharSplit ':' l with
        | none => true
        | some p => validOptionalPort (':' :: p.2)) && l.all hostCharOK) := by
  simp only [parseHostValid, if_neg hb]

/-- Lowercasing preserves `parseHostValid` for a non-bracketed host with at
most one colon. -/
theorem parseHostValid_lower (l : List Char) (hv : parseHostValid l = true)
    (hb : l.head? ≠ some '[')
    (hcolon : (l.filter (fun c => c = ':')).length ≤ 1) :
    parseHostValid (l.map lowerChar) = true := by
  have hall : l.all hostCharOK = true := ((Bool.and_eq_true _ _).mp hv).2
  have hb2 := map_lowerChar_head_ne_bracket hb
  by_cases hc : ':' ∈ l
  · have hfound : (cutChar ':' l).2.2 = true := cutChar_found_of_mem hc
    have hdecomp := cutChar_found ':' l hfound
    set pre := (cutChar ':' l).1 with hpre'
    set suf := (cutChar ':' l).2.1 with hsuf'
    have hpre : ':' ∉ pre := cutChar_not_mem_fst ':' l
    have hsufc : ':' ∉ suf := by
      intro hm
      have h1 : 0 < (suf.filter (fun c => c = ':')).length := by
        rw [List.length_pos]
        intro hnil
        have h2 : ':' ∈ suf.filter (fun c => c = ':') :=
          List.mem_filter.mpr ⟨hm, by simp⟩
        rw [hnil] at h2
        cases h2
      rw [hdecomp, List.filter_append] at hcolon
      simp only [List.length_append, List.filter_cons] at hcolon
      simp at hcolon
      omega
    have hlast : lastCharSplit ':' l = some (pre, suf) := by
      conv_lhs => rw [hdecomp]
      exact lastCharSplit_append ':' pre suf hsufc
    have hvport : validOptionalPort (':' :: suf) = true := by
      have h1 := ((Bool.and_eq_true _ _).mp hv).1
      rw [if_neg hb] at h1
      rw [hlast] at h1
      exact h1
    have hsufd : suf.all Char.isDigit = true := by
      simpa [validOptionalPort] using hvport
    have hmap : l.map lowerChar = pre.map lowerChar ++ ':' :: suf := by
      conv_lhs => rw [hdecomp]
      rw [List.map_append, List.map_cons, map_lowerChar_digits hsufd]
      rw [show lowerChar ':' = ':' from by decide]
    have hbp : (pre.map lowerChar ++ ':' :: suf).head? ≠ some '[' := by
      rw [← hmap]
      exact hb2
    rw [hmap, parseHostValid_not_bracket _ hbp,
      lastCharSplit_append ':' (pre.map lowerChar) suf hsufc,
      Bool.and_eq_true]
    refine ⟨hvport, ?_⟩
    rw [← hmap]
    exact all_hostCharOK_map_lowerChar hall
  · exact parseHostValid_of_no_colon (l.map lowerChar)
      (map_lowerChar_colon_not_mem hc) (map_lowerChar_head_ne_bracket hb)
      (all_hostCharOK_map_lowerChar hall)

end Linkwatch

namespace Linkwatch

theorem string_data_mk (l : List Char) : (String.mk l).data = l := rfl

theorem asciiToLower_data (s : String) :
    asciiToLower s = String.mk (s.data.map lowerChar) := rfl

theorem map_lowerChar_idem (l : List Char) :
    (l.map lowerChar).map lowerChar = l.map lowerChar := by
  rw [List.map_map]
  exact List.map_congr_left (fun a _ => lowerChar_lowerChar a)

theorem listEndsWith_colon_iff (pre port ds : List Char)
    (hport : ':' ∉ port) (hds : ':' ∉ ds) :
    listEndsWith (pre ++ ':' :: port) (':' :: ds) = true ↔ port = ds := by
  constructor
  · intro h
    obtain ⟨p, hp⟩ := (listEndsWith_iff _ _).mp h
    have h1 : lastCharSplit ':' (pre ++ ':' :: port) = some (pre, port) :=
      lastCharSplit_append ':' pre port hport
    have h2 : lastCharSplit ':' (pre ++ ':' :: port) = some (p, ds) := by
      rw [hp]
      exact lastCharSplit_append ':' p ds hds
    rw [h1] at h2
    exact (Prod.mk.inj (Option.some.inj h2)).2
  · rintro rfl
    exact listEndsWith_append pre (':' :: port)

/-- Splitting a host at its single colon: the part after the colon is a
digit-only port whenever the host passes `net/url`'s host validation. -/
theorem host_colon_decomp (l : List Char) (hv : parseHostValid l = true)
    (hb : l.head? ≠ some '[')
    (hcolon : (l.filter (fun c => c = ':')).length ≤ 1)
    (hc : ':' ∈ l) :
    l = (cutChar ':' l).1 ++ ':' :: (cutChar ':' l).2.1 ∧
    ':' ∉ (cutChar ':' l).1 ∧ ':' ∉ (cutChar ':' l).2.1 ∧
    (cutChar ':' l).2.1.all Char.isDigit = true := by
  have hfound : (cutChar ':' l).2.2 = true := cutChar_found_of_mem hc
  have hdecomp := cutChar_found ':' l hfound
  have hpre : ':' ∉ (cutChar ':' l).1 := cutChar_not_mem_fst ':' l
  have hsufc : ':' ∉ (cutChar ':' l).2.1 := by
    intro hm
    have h1 : 0 < ((cutChar ':' l).2.1.filter (fun c => c = ':')).length := by
      rw [List.length_pos]
      intro hnil
      have h2 : ':' ∈ (cutChar ':' l).2.1.filter (fun c => c = ':') :=
        List.mem_filter.mpr ⟨hm, by simp⟩
      rw [hnil] at h2
      cases h2
    rw [hdecomp, List.filter_append] at hcolon
    simp only [List.length_append, List.filter_cons] at hcolon
    simp at hcolon
    omega
  have hlast : lastCharSplit ':' l = some ((cutChar ':' l).1, (cutChar ':' l).2.1) := by
    conv_lhs => rw [hdecomp]
    exact lastCharSplit_append ':' _ _ hsufc
  have hvport : validOptionalPort (':' :: (cutChar ':' l).2.1) = true := by
    have h1 := ((Bool.and_eq_true _ _).mp hv).1
    rw [if_neg hb] at h1
    rw [hlast] at h1
    exact h1
  have hsufd : (cutChar ':' l).2.1.all Char.isDigit = true := by
    simpa [validOptionalPort] using hvport
  exact ⟨hdecomp, hpre, hsufc, hsufd⟩

/-- `canonicalHostStep` on a lowercase host of the shape `pre:port` with a
digit-only port and a non-bracketed, colon-free `pre`: the port is removed
exactly when it is the scheme's default port. -/
theorem canonicalHostStep_char (scheme : String) (pre port : List Char)
    (hpre : ':' ∉ pre) (hb : pre.head? ≠ some '[')
    (hlower : pre.map lowerChar = pre)
    (hport : port.all Char.isDigit = true) :
    canonicalHostStep scheme (String.mk (pre ++ ':' :: port)) =
      (if (scheme = "http" ∧ port = ['8', '0']) ∨
          (scheme = "https" ∧ port = ['4', '4', '3']) then
        String.mk pre
      else String.mk (pre ++ ':' :: port)) := by
  have hportc : ':' ∉ port := by
    intro hm
    rw [List.all_eq_true] at hport
    exact absurd (hport ':' hm) (by decide)
  have hlowdata : asciiToLower (String.mk (pre ++ ':' :: port)) =
      String.mk (pre ++ ':' :: port) := by
    rw [asciiToLower_data, string_data_mk, List.map_append, hlower,
      List.map_cons, map_lowerChar_digits hport,
      show lowerChar ':' = ':' from by decide]
  have h80 : strEndsWith (String.mk (pre ++ ':' :: port)) ":80" = true ↔
      port = ['8', '0'] :=
    listEndsWith_colon_iff pre port ['8', '0'] hportc (by decide)
  have h443 : strEndsWith (String.mk (pre ++ ':' :: port)) ":443" = true ↔
      port = ['4', '4', '3'] :=
    listEndsWith_colon_iff pre port ['4', '4', '3'] hportc (by decide)
  simp only [canonicalHostStep, hlowdata]
  split
  · rename_i hcase
    have hmine : (scheme = "http" ∧ port = ['8', '0']) ∨
        (scheme = "https" ∧ port = ['4', '4', '3']) := by
      rcases hcase with ⟨h1, h2⟩ | ⟨h1, h2⟩
      · exact Or.inl ⟨h1, h80.mp h2⟩
      · exact Or.inr ⟨h1, h443.mp h2⟩
    rw [if_pos hmine]
    show String.mk (splitHostPortHost (pre ++ ':' :: port)) = String.mk pre
    rw [splitHostPortHost_strip pre port hpre hport hb]
  · rename_i hcase
    have hmine : ¬((scheme = "http" ∧ port = ['8', '0']) ∨
        (scheme = "https" ∧ port = ['4', '4', '3'])) := by
      rintro (⟨h1, h2⟩ | ⟨h1, h2⟩)
      · exact hcase (Or.inl ⟨h1, h80.mpr h2⟩)
      · exact hcase (Or.inr ⟨h1, h443.mpr h2⟩)
    rw [if_neg hmine]

/-- `canonicalHostStep` on a colon-free host only lowercases it. -/
theorem canonicalHostStep_no_colon (scheme : String) (m : List Char)
    (hm : ':' ∉ m) :
    canonicalHostStep scheme (String.mk m) = String.mk (m.map lowerChar) := by
  have hm2 : ':' ∉ m.map lowerChar := map_lowerChar_colon_not_mem hm
  have hlowdata : asciiToLower (String.mk m) = String.mk (m.map lowerChar) := by
    rw [asciiToLower_data, string_data_mk]
  simp only [canonicalHostStep, hlowdata]
  split
  · rename_i hcase
    exfalso
    rcases hcase with ⟨h1, h2⟩ | ⟨h1, h2⟩
    · exact hm2 (listEndsWith_mem h2 (by decide))
    · exact hm2 (listEndsWith_mem h2 (by decide))
  · rfl

/-- Lowercasing the host first does not change `canonicalHostStep`. -/
theorem canonicalHostStep_lower_inv (scheme host : String) :
    canonicalHostStep scheme (asciiToLower host) =
      canonicalHostStep scheme host := by
  have h1 : asciiToLower (asciiToLower host) = asciiToLower host := by
    rw [asciiToLower_data host, asciiToLower_data, string_data_mk,
      map_lowerChar_idem]
  simp only [canonicalHostStep, h1]

end Linkwatch

namespace Linkwatch

/-- The host component produced by `Canonicalize` (for a non-bracketed host
with at most one colon that does not start with a colon) is nonempty, valid,
over the host character set, and a fixed point of `canonicalHostStep`. -/
theorem canonicalHostStep_props (scheme host : String)
    (hne : host ≠ "")
    (hvalid : parseHostValid host.data = true)
    (hall : host.data.all hostCharOK = true)
    (hb : host.data.head? ≠ some '[')
    (hc1 : host.data.head? ≠ some ':')
    (hcolon : (host.data.filter (fun c => c = ':')).length ≤ 1) :
    canonicalHostStep scheme host ≠ "" ∧
    parseHostValid (canonicalHostStep scheme host).data = true ∧
    (canonicalHostStep scheme host).data.all hostCharOK = true ∧
    canonicalHostStep scheme (canonicalHostStep scheme host) =
      canonicalHostStep scheme host := by
  have hmk : String.mk host.data = host := rfl
  by_cases hc : ':' ∈ host.data
  · obtain ⟨hdecomp, hprec, hsufc, hsufd⟩ :=
      host_colon_decomp host.data hvalid hb hcolon hc
    obtain ⟨p0, pr, hp0⟩ : ∃ p0 pr, (cutChar ':' host.data).1 = p0 :: pr := by
      cases hq : (cutChar ':' host.data).1 with
      | nil =>
          exfalso
          rw [hq] at hdecomp
          rw [hdecomp] at hc1
          exact hc1 rfl
      | cons p0 pr => exact ⟨p0, pr, rfl⟩
    have hheadpre : (cutChar ':' host.data).1.head? = host.data.head? := by
      conv_rhs => rw [hdecomp]
      rw [hp0]
      rfl
    have hbp : (cutChar ':' host.data).1.head? ≠ some '[' := by
      rw [hheadpre]
      exact hb
    have hbp' : ((cutChar ':' host.data).1.map lowerChar).head? ≠ some '[' :=
      map_lowerChar_head_ne_bracket hbp
    have hallpre : (cutChar ':' host.data).1.all hostCharOK = true := by
      have h1 := hall
      rw [hdecomp, List.all_append] at h1
      exact ((Bool.and_eq_true _ _).mp h1).1
    have hL : host.data.map lowerChar =
        (cutChar ':' host.data).1.map lowerChar ++ ':' :: (cutChar ':' host.data).2.1 := by
      conv_lhs => rw [hdecomp]
      rw [List.map_append, List.map_cons, map_lowerChar_digits hsufd,
        show lowerChar ':' = ':' from by decide]
    have hhostL : asciiToLower host =
        String.mk ((cutChar ':' host.data).1.map lowerChar ++
          ':' :: (cutChar ':' host.data).2.1) := by
      rw [asciiToLower_data, hL]
    have hmain : canonicalHostStep scheme host =
        (if (scheme = "http" ∧ (cutChar ':' host.data).2.1 = ['8', '0']) ∨
            (scheme = "https" ∧ (cutChar ':' host.data).2.1 = ['4', '4', '3']) then
          String.mk ((cutChar ':' host.data).1.map lowerChar)
        else String.mk ((cutChar ':' host.data).1.map lowerChar ++
          ':' :: (cutChar ':' host.data).2.1)) := by
      rw [← canonicalHostStep_lower_inv scheme host, hhostL]
      exact canonicalHostStep_char scheme _ _
        (map_lowerChar_colon_not_mem hprec) hbp'
        (map_lowerChar_idem (cutChar ':' host.data).1) hsufd
    by_cases hstrip : (scheme = "http" ∧ (cutChar ':' host.data).2.1 = ['8', '0']) ∨
        (scheme = "https" ∧ (cutChar ':' host.data).2.1 = ['4', '4', '3'])
    · rw [hmain, if_pos hstrip]
      refine ⟨?_, ?_, ?_, ?_⟩
      · rw [string_ne_iff_data, string_data_mk, hp0]
        simp
      · rw [string_data_mk]
        exact parseHostValid_of_no_colon _
          (map_lowerChar_colon_not_mem hprec) hbp'
          (all_hostCharOK_map_lowerChar hallpre)
      · rw [string_data_mk]
        exact all_hostCharOK_map_lowerChar hallpre
      · rw [canonicalHostStep_no_colon scheme _
          (map_lowerChar_colon_not_mem hprec),
          map_lowerChar_idem]
    · rw [hmain, if_neg hstrip]
      refine ⟨?_, ?_, ?_, ?_⟩
      · rw [string_ne_iff_data, string_data_mk]
        simp
      · rw [string_data_mk, ← hL]
        exact parseHostValid_lower host.data hvalid hb hcolon
      · rw [string_data_mk, ← hL]
        exact all_hostCharOK_map_lowerChar hall
      · have hchar := canonicalHostStep_char scheme
          ((cutChar ':' host.data).1.map lowerChar) (cutChar ':' host.data).2.1
          (map_lowerChar_colon_not_mem hprec) hbp'
          (map_lowerChar_idem (cutChar ':' host.data).1) hsufd
        rw [hchar, if_neg hstrip]
  · have hstep : canonicalHostStep scheme host =
        String.mk (host.data.map lowerChar) := by
      rw [← hmk]
      exact canonicalHostStep_no_colon scheme host.data hc
    rw [hstep]
    refine ⟨?_, ?_, ?_, ?_⟩
    · rw [string_ne_iff_data, string_data_mk]
      intro hcon
      exact (string_ne_iff_data.mp hne) (List.map_eq_nil.mp hcon)
    · rw [string_data_mk]
      exact parseHostValid_of_no_colon _
        (map_lowerChar_colon_not_mem hc)
        (map_lowerChar_head_ne_bracket hb)
        (all_hostCharOK_map_lowerChar hall)
    · rw [string_data_mk]
      exact all_hostCharOK_map_lowerChar hall
    · rw [canonicalHostStep_no_colon scheme _
        (map_lowerChar_colon_not_mem hc), map_lowerChar_idem]

end Linkwatch

namespace Linkwatch

/-- The path component produced by `Canonicalize` (for a parsed path that
does not end in a double slash) keeps its shape and character set and no
longer satisfies the trailing-slash trim condition. -/
theorem pathTrim_props (p : String)
    (hshape : p = "" ∨ p.data.head? = some '/')
    (hall : p.data.all pathCharOK = true)
    (hnodbl : listEndsWith p.data ['/', '/'] = false) :
    ((if p.length > 1 ∧ strEndsWith p "/" then String.mk p.data.dropLast
        else p) = "" ∨
      (if p.length > 1 ∧ strEndsWith p "/" then String.mk p.data.dropLast
        else p).data.head? = some '/') ∧
    (if p.length > 1 ∧ strEndsWith p "/" then String.mk p.data.dropLast
      else p).data.all pathCharOK = true ∧
    ¬((if p.length > 1 ∧ strEndsWith p "/" then String.mk p.data.dropLast
        else p).length > 1 ∧
      strEndsWith (if p.length > 1 ∧ strEndsWith p "/" then
        String.mk p.data.dropLast else p) "/") := by
  by_cases hcond : p.length > 1 ∧ strEndsWith p "/"
  · rw [if_pos hcond]
    obtain ⟨hlen, hend⟩ := hcond
    have hend' : listEndsWith p.data ['/'] = true := hend
    obtain ⟨pr, hpr⟩ := (listEndsWith_iff _ _).mp hend'
    have hdrop : p.data.dropLast = pr := by
      rw [hpr, List.dropLast_concat]
    have hhead : p.data.head? = some '/' := by
      rcases hshape with h | h
      · exfalso
        rw [h] at hlen
        exact absurd hlen (by decide)
      · exact h
    refine ⟨?_, ?_, ?_⟩
    · cases hq : pr with
      | nil =>
          left
          rw [string_eq_empty_iff, string_data_mk, hdrop, hq]
      | cons c pr2 =>
          right
          have hc : c = '/' := by
            rw [hq] at hpr
            rw [hpr] at hhead
            simpa using hhead
          rw [string_data_mk, hdrop, hq, hc]
          rfl
    · rw [string_data_mk, hdrop, List.all_eq_true]
      intro x hx
      have hx2 : x ∈ p.data := by
        rw [hpr]
        exact List.mem_append_left _ hx
      rw [List.all_eq_true] at hall
      exact hall x hx2
    · rintro ⟨h1, h2⟩
      have h2' : listEndsWith (String.mk p.data.dropLast).data ['/'] = true := h2
      rw [string_data_mk, hdrop] at h2'
      obtain ⟨pr2, hpr2⟩ := (listEndsWith_iff _ _).mp h2'
      have hdata : p.data = pr2 ++ ['/', '/'] := by
        rw [hpr, hpr2, List.append_assoc]
        rfl
      have : listEndsWith p.data ['/', '/'] = true := by
        rw [hdata]
        exact listEndsWith_append pr2 ['/', '/']
      rw [hnodbl] at this
      cases this
  · rw [if_neg hcond]
    exact ⟨hshape, hall, hcond⟩

end Linkwatch

namespace Linkwatch

/-- C7 (amended): for every URL accepted by the canonicalizer whose host has
the shape `pre:port` with a digit-only port and a lowercase, colon-free,
non-bracketed `pre`, the canonical output's host is exactly `pre` when the
port is the scheme's default (`80` for http, `443` for https) and exactly
`pre:port` otherwise — so precisely the default port is stripped and custom
ports are preserved verbatim.  (The original claim fails for IPv6 literals,
where the enclosing brackets are removed along with the default port; see
the counterexample.) -/
theorem Canonicalize_defaultPortOnly (raw : String) (u : GoURL)
    (hp : parseURL raw = some u)
    (hs : u.scheme = "http" ∨ u.scheme = "https")
    (pre port : List Char)
    (hhost : u.host.data = pre ++ ':' :: port)
    (hpre : ':' ∉ pre) (hb : pre.head? ≠ some '[')
    (hlower : pre.map lowerChar = pre)
    (hport : port.all Char.isDigit = true) :
    ∃ v : GoURL, Canonicalize raw = some (urlString v) ∧
      v.host = (if (u.scheme = "http" ∧ port = ['8', '0']) ∨
          (u.scheme = "https" ∧ port = ['4', '4', '3']) then
        String.mk pre
      else String.mk (pre ++ ':' :: port)) := by
  have hlowsch : asciiToLower u.scheme = u.scheme := by
    rcases hs with h | h <;> rw [h] <;> decide
  have hhost' : u.host = String.mk (pre ++ ':' :: port) := by
    rw [← hhost]
  refine ⟨canonXform u, Canonicalize_eq_some raw u hp hs, ?_⟩
  show canonicalHostStep (asciiToLower u.scheme) u.host = _
  rw [hlowsch, hhost', canonicalHostStep_char u.scheme pre port hpre hb hlower hport]

theorem Canonicalize_defaultPortOnly_witness :
    (∃ v : GoURL, Canonicalize "http://example.com:8080/path" =
        some (urlString v) ∧ v.host = "example.com:8080") ∧
    (∃ v : GoURL, Canonicalize "http://example.com:80/path" =
        some (urlString v) ∧ v.host = "example.com") := by
  constructor
  · obtain ⟨v, h1, h2⟩ := Canonicalize_defaultPortOnly
      "http://example.com:8080/path"
      ⟨"http", "", "example.com:8080", "/path", "", false, "", false⟩
      (by decide) (Or.inl rfl) "example.com".data ['8', '0', '8', '0']
      (by decide) (by decide) (by decide) (by decide) (by decide)
    refine ⟨v, h1, ?_⟩
    rw [h2]
    decide
  · obtain ⟨v, h1, h2⟩ := Canonicalize_defaultPortOnly
      "http://example.com:80/path"
      ⟨"http", "", "example.com:80", "/path", "", false, "", false⟩
      (by decide) (Or.inl rfl) "example.com".data ['8', '0']
      (by decide) (by decide) (by decide) (by decide) (by decide)
    refine ⟨v, h1, ?_⟩
    rw [h2]
    decide

end Linkwatch

namespace Linkwatch

/-- C8 (amended): `Canonicalize` is idempotent on every accepted URL whose
host is non-bracketed, has at most one colon, and does not start with a
colon, and whose path does not end in a double slash: canonicalizing the
canonical output returns it unchanged.  (The original unconditional claim
fails because the trailing-slash trim removes only one slash per pass; see
the counterexample.) -/
theorem Canonicalize_idempotent_amended (raw : String) (u : GoURL)
    (hp : parseURL raw = some u)
    (hs : u.scheme = "http" ∨ u.scheme = "https")
    (hhost : u.host ≠ "")
    (hb : u.host.data.head? ≠ some '[')
    (hc1 : u.host.data.head? ≠ some ':')
    (hcolon : (u.host.data.filter (fun c => c = ':')).length ≤ 1)
    (hslash : listEndsWith u.path.data ['/', '/'] = false) :
    ∃ s, Canonicalize raw = some s ∧ Canonicalize s = some s := by
  obtain ⟨hopq, homit, hallH, hvalidH, hpathShape, hallP, hfq, hqh, hqp⟩ :=
    parseURL_inv raw u hp hhost
  have hlowsch : asciiToLower u.scheme = u.scheme := by
    rcases hs with h | h <;> rw [h] <;> decide
  have hs' : asciiToLower u.scheme = "http" ∨ asciiToLower u.scheme = "https" := by
    rw [hlowsch]
    exact hs
  obtain ⟨hH0, hH1, hH2, hH4⟩ := canonicalHostStep_props (asciiToLower u.scheme)
    u.host hhost hvalidH hallH hb hc1 hcolon
  obtain ⟨hP0, hP1, hP2⟩ := pathTrim_props u.path hpathShape hallP hslash
  have hCFv : CanonicalForm (canonXform u) :=
    ⟨hs', hopq, homit, rfl, hH0, hH2, hH1, hP0, hP1, hfq, hqh, hqp⟩
  have hround := parseURL_roundtrip (canonXform u) hCFv
  have h2 := Canonicalize_eq_some (urlString (canonXform u)) (canonXform u)
    hround hs'
  have hlowsch2 : asciiToLower (asciiToLower u.scheme) = asciiToLower u.scheme := by
    rw [hlowsch]
    exact hlowsch
  have hfix : canonXform (canonXform u) = canonXform u := by
    simp only [canonXform]
    rw [hlowsch2, hH4, if_neg hP2]
  refine ⟨urlString (canonXform u), Canonicalize_eq_some raw u hp hs, ?_⟩
  rw [h2, hfix]

theorem Canonicalize_idempotent_amended_witness :
    ∃ s, Canonicalize "http://example.com:8080/foo/" = some s ∧
      Canonicalize s = some s :=
  Canonicalize_idempotent_amended "http://example.com:8080/foo/"
    ⟨"http", "", "example.com:8080", "/foo/", "", false, "", false⟩
    (by decide) (Or.inl rfl) (by decide) (by decide) (by decide) (by decide)
    (by decide)

end Linkwatch
